import Mathlib

/-!
Verification of the meditor indexing/search core (`src-tauri/src/lib.rs`,
`src-tauri/src/semantic.rs`) against its natural-language specification.

The Rust code is shallowly embedded: strings are modelled as `List Char`
(`String.data`), `f64`/`f32` arithmetic as exact rationals `ℚ`, and the
32-bit float payloads of serialized vectors as 32-bit natural numbers.
Rust's Unicode-aware `char::to_lowercase` / `str::trim` are modelled by
their ASCII restrictions (`Char.toLower`, `Char.isWhitespace`), and the
NFC normalization step of `normalize_key_text` is the identity on the
ASCII fragment in scope.  Every definition follows the corresponding Rust
function line by line; deviations forced by the embedding are noted in
the doc comments.
-/

/- The Batteries rational-number operations are `@[irreducible]`; concrete
evaluation of the embedded score arithmetic (e.g. in closed witnesses) needs
them reducible. -/
attribute [local semireducible] Rat.add Rat.mul Rat.inv Rat.sub
  Rat.ofScientific

namespace Meditor

/-! ### Generic character/list helpers shared by the embedded functions -/

/-- Rust `str::trim_start` (ASCII whitespace fragment). -/
def trimStart (l : List Char) : List Char :=
  l.dropWhile Char.isWhitespace

/-- Rust `str::trim_end` (ASCII whitespace fragment). -/
def trimEnd (l : List Char) : List Char :=
  (l.reverse.dropWhile Char.isWhitespace).reverse

/-- Rust `str::trim` (ASCII whitespace fragment). -/
def trimChars (l : List Char) : List Char :=
  trimEnd (trimStart l)

/-- Rust `char::is_ascii_digit`. -/
def isDigitChar (c : Char) : Bool :=
  '0' ≤ c && c ≤ '9'

/-- Rust `str::split(c)`: `n` separators yield `n + 1` (possibly empty)
segments; the empty string yields one empty segment. -/
def splitChar (c : Char) : List Char → List (List Char)
  | [] => [[]]
  | x :: rest =>
    match splitChar c rest with
    | [] => [[]]
    | seg :: segs => if x = c then [] :: seg :: segs else (x :: seg) :: segs

/-- Rust `str::split(pred)` for a character predicate. -/
def splitPred (p : Char → Bool) : List Char → List (List Char)
  | [] => [[]]
  | x :: rest =>
    match splitPred p rest with
    | [] => [[]]
    | seg :: segs => if p x then [] :: seg :: segs else (x :: seg) :: segs

/-- Drops the final segment when it is empty (Rust `str::lines` never emits a
trailing empty line). -/
def dropLastEmpty (ls : List (List Char)) : List (List Char) :=
  match ls.getLast? with
  | some [] => ls.dropLast
  | _ => ls

/-- Strips one trailing `'\r'` from a line, as Rust `str::lines` does. -/
def stripTrailingCR (l : List Char) : List Char :=
  match l.getLast? with
  | some '\r' => l.dropLast
  | _ => l

/-- Rust `str::lines`: split at `'\n'`, drop a trailing empty segment, strip a
final `'\r'` from each line. -/
def rustLines (l : List Char) : List (List Char) :=
  (dropLastEmpty (splitChar '\n' l)).map stripTrailingCR

/-- Joins lines with `'\n'` (Rust `Vec::join("\n")`). -/
def joinLines : List (List Char) → List Char
  | [] => []
  | [l] => l
  | l :: rest => l ++ '\n' :: joinLines rest

/-- ASCII lowercasing of a character list (Rust `str::to_lowercase` /
`str::to_ascii_lowercase`, restricted to ASCII input). -/
def toLowerChars (l : List Char) : List Char :=
  l.map Char.toLower

/-! ### Markdown decomposer (`lib.rs`: `heading_anchor`, `chunk_markdown`) -/

/-- One step of the `heading_anchor` loop: state is the reversed accumulated
output together with the `previous_dash` flag. -/
def headingAnchorStep (state : List Char × Bool) (ch : Char) : List Char × Bool :=
  let c := ch.toLower
  if c.isAlphanum then (c :: state.1, false)
  else if state.2 then state
  else ('-' :: state.1, true)

/-- Rust `heading_anchor`: lowercase, keep ASCII alphanumerics, collapse other
characters into single dashes, trim dashes at both ends.  (`char::to_lowercase`
is modelled by ASCII `Char.toLower`; `Char.isAlphanum` is exactly
`is_ascii_alphanumeric` after lowercasing.) -/
def heading_anchor (text : List Char) : List Char :=
  let out := (text.foldl headingAnchorStep ([], false)).1.reverse
  ((out.dropWhile (· = '-')).reverse.dropWhile (· = '-')).reverse

/-- Folds `"\r\n"` and then any remaining `'\r'` into `'\n'`
(`markdown.replace("\r\n", "\n").replace('\r', "\n")`); the two left-to-right
replacement passes are equivalent to this single pass. -/
def foldCR : List Char → List Char
  | '\r' :: '\n' :: rest => '\n' :: foldCR rest
  | '\r' :: rest => '\n' :: foldCR rest
  | c :: rest => c :: foldCR rest
  | [] => []

/-- The heading probe inside `chunk_markdown`'s loop: a line whose leading run
of `'#'` has length 1–6 and whose remainder is non-empty after trimming yields
`(anchor, title)`. -/
def headingData (line : List Char) : Option (List Char × List Char) :=
  let level := (line.takeWhile (· = '#')).length
  if 1 ≤ level ∧ level ≤ 6 then
    let title := trimChars (line.drop level)
    if title = [] then none else some (heading_anchor title, title)
  else none

/-- Emits the accumulated chunk if its joined, trimmed text is non-empty
(the two `push` sites of `chunk_markdown`). -/
def flushChunk (anchor : List Char) (cur : List (List Char)) :
    List (String × String) :=
  if cur = [] then []
  else
    let text := trimChars (joinLines cur)
    if text = [] then [] else [(String.mk anchor, String.mk text)]

/-- The main loop of `chunk_markdown` over the folded lines. -/
def chunkLoop (anchor : List Char) (cur : List (List Char)) :
    List (List Char) → List (String × String)
  | [] => flushChunk anchor cur
  | raw :: rest =>
    let line := trimEnd raw
    match headingData line with
    | some (a, title) => flushChunk anchor cur ++ chunkLoop a [title] rest
    | none => chunkLoop anchor (cur ++ [line]) rest

/-- Rust `chunk_markdown`: fold CR line endings, accumulate lines into
heading-anchored chunks, and fall back to one whole-body chunk when nothing
was emitted. -/
def chunk_markdown (markdown : String) : List (String × String) :=
  let chunks := chunkLoop [] [] (rustLines (foldCR markdown.data))
  if chunks.isEmpty then
    let fallback := trimChars markdown.data
    if fallback = [] then [] else [("", String.mk fallback)]
  else chunks

/-! ### Wiki links, date targets and frontmatter
(`lib.rs`: `normalize_key_text`, `normalize_wikilink_target`,
`parse_wikilink_targets`, `is_iso_date_token`, `parse_iso_date_targets`,
`parse_note_targets`, `strip_yaml_frontmatter`, `extract_yaml_frontmatter`) -/

/-- Rust `normalize_key_text`: `to_lowercase` followed by NFC normalization.
NFC is the identity on ASCII, so the model keeps only the lowercasing. -/
def normalize_key_text (l : List Char) : List Char :=
  toLowerChars l

/-- Strips every leading `"./"` (the `while target.starts_with("./")` loop). -/
def dropDotSlash : List Char → List Char
  | '.' :: '/' :: rest => dropDotSlash rest
  | l => l

/-- Rust `str::ends_with` on character lists. -/
def endsWithChars (suffix l : List Char) : Bool :=
  decide (l.reverse.take suffix.length = suffix.reverse)

/-- Rust `normalize_wikilink_target`: trim, `\`→`/`, strip leading `/` and
`./`, reject empty/`.`/`..` segments, strip a `.md`/`.markdown` suffix
case-insensitively (`truncate` counts bytes; the suffix is ASCII so dropping
characters is equivalent), trim `/` at both ends, lowercase. -/
def normalize_wikilink_target (raw : List Char) : Option (List Char) :=
  let target := (trimChars raw).map (fun c => if c = '\\' then '/' else c)
  if target = [] then none
  else
    let target := dropDotSlash (target.dropWhile (· = '/'))
    if (splitChar '/' target).any
        (fun seg => seg = [] ∨ seg = ['.'] ∨ seg = ['.', '.']) then none
    else
      let lower := toLowerChars target
      let target :=
        if endsWithChars ".markdown".data lower then
          target.take (target.length - 9)
        else if endsWithChars ".md".data lower then
          target.take (target.length - 3)
        else target
      let key := normalize_key_text
        ((target.dropWhile (· = '/')).reverse.dropWhile (· = '/') |>.reverse)
      if key = [] then none else some key

/-- The per-bracket-pair extraction of `parse_wikilink_targets`:
`content.split_once('|')` keeping the left part, then `split_once('#')`
keeping the left part, then `trim`. -/
def wikilinkRawTarget (content : List Char) : List Char :=
  trimChars ((content.takeWhile (· ≠ '|')).takeWhile (· ≠ '#'))

/-- The `parse_wikilink_targets` loop as a character scanner.  `none` is the
state outside any `[[…]]` pair (Rust's `find("[[")` scan); `some acc` is the
state after an opening `"[["` with `acc` the content read so far (Rust's
`find("]]")` scan).  An opening pair with no closing `"]]"` ends the scan with
the targets collected so far, exactly like the Rust `break`. -/
def pwScan : Option (List Char) → List Char → List (List Char)
  | none, '[' :: '[' :: rest => pwScan (some []) rest
  | none, _ :: rest => pwScan none rest
  | none, [] => []
  | some acc, ']' :: ']' :: rest =>
    let t := wikilinkRawTarget acc
    if t = [] then pwScan none rest else t :: pwScan none rest
  | some acc, c :: rest => pwScan (some (acc ++ [c])) rest
  | some _, [] => []

/-- Rust `parse_wikilink_targets`: scan for `"[["`, take the content up to the
next `"]]"`, keep non-empty extracted targets, continue after the `"]]"`. -/
def parse_wikilink_targets (l : List Char) : List (List Char) :=
  pwScan none l

/-- Numeric value of a digit character. -/
def digitVal (c : Char) : Nat :=
  c.toNat - 48

/-- Rust `is_iso_date_token`: exactly `DDDD-DD-DD` digits/dashes, with
`year > 0`, `1 ≤ month ≤ 12` and `1 ≤ day ≤ 31`. -/
def is_iso_date_token (l : List Char) : Bool :=
  match l with
  | [y1, y2, y3, y4, d1, m1, m2, d2, a1, a2] =>
    isDigitChar y1 && isDigitChar y2 && isDigitChar y3 && isDigitChar y4 &&
    d1 = '-' && isDigitChar m1 && isDigitChar m2 && d2 = '-' &&
    isDigitChar a1 && isDigitChar a2 &&
    (let year := 1000 * digitVal y1 + 100 * digitVal y2 +
        10 * digitVal y3 + digitVal y4
     let month := 10 * digitVal m1 + digitVal m2
     let day := 10 * digitVal a1 + digitVal a2
     year ≠ 0 && 1 ≤ month && month ≤ 12 && 1 ≤ day && day ≤ 31)
  | _ => false

/-- The separator set of `parse_iso_date_targets`: whitespace plus
`,.;:()[]{}<>!?"'` and backtick. -/
def isDateSeparator (c : Char) : Bool :=
  c.isWhitespace || (",.;:()[]{}<>!?\"'`".data).contains c

/-- Rust `parse_iso_date_targets`: split the body at separators and map each
ISO-date token to `journal/YYYY-MM-DD`. -/
def parse_iso_date_targets (markdown : List Char) : List (List Char) :=
  ((splitPred isDateSeparator markdown).filter
    (fun tok => is_iso_date_token tok)).map (fun tok => "journal/".data ++ tok)

/-- Splits `rest` (the text after a leading `"---\n"`) at the first
`"\n---\n"`, returning the frontmatter before it and the body after it
(`rest.find("\n---\n")` in `strip_yaml_frontmatter` /
`extract_yaml_frontmatter`). -/
def splitFrontmatterEnd : List Char → Option (List Char × List Char)
  | '\n' :: '-' :: '-' :: '-' :: '\n' :: rest => some ([], rest)
  | c :: rest => (splitFrontmatterEnd rest).map (fun p => (c :: p.1, p.2))
  | [] => none

/-- Rust `strip_yaml_frontmatter`: if the file starts with `"---\n"` and a
closing `"\n---\n"` follows, return the body after the closing marker;
otherwise the whole file. -/
def strip_yaml_frontmatter (markdown : List Char) : List Char :=
  match markdown with
  | '-' :: '-' :: '-' :: '\n' :: rest =>
    match splitFrontmatterEnd rest with
    | some p => p.2
    | none => markdown
  | _ => markdown

/-- Rust `extract_yaml_frontmatter`: the content between the two markers. -/
def extract_yaml_frontmatter (markdown : List Char) : Option (List Char) :=
  match markdown with
  | '-' :: '-' :: '-' :: '\n' :: rest =>
    (splitFrontmatterEnd rest).map (fun p => p.1)
  | _ => none

/-- The target-collection part of `parse_note_targets` applied to an
(already frontmatter-stripped) content: union of the normalized wiki targets
and the journal date targets.  The Rust `HashSet` is modelled as a
`Finset String`. -/
def noteTargetsOfBody (content : List Char) : Finset String :=
  (((parse_wikilink_targets content).filterMap normalize_wikilink_target).map
      String.mk ++
    ((parse_iso_date_targets content).map normalize_key_text).map
      String.mk).toFinset

/-- Rust `parse_note_targets`: strip frontmatter, union the normalized wiki
targets and the journal date targets. -/
def parse_note_targets (markdown : String) : Finset String :=
  noteTargetsOfBody (strip_yaml_frontmatter markdown.data)

/-! ### Rust `str::parse::<f64>` with the `is_finite` check

The grammar of `f64::from_str` is
`Sign? ('inf' | 'infinity' | 'nan' | Number)` with
`Number ::= Count '.'? Count? Exp? | '.' Count Exp?`,
`Exp ::= ('e'|'E') Sign? Count`, `Count ::= Digit+` (the words are matched
case-insensitively).  The parsed value is modelled as the exact rational the
literal denotes (instead of its f64 rounding); `is_finite` is modelled by the
f64 overflow threshold: a literal of magnitude at or above
`(2 - 2⁻⁵³)·2¹⁰²³` rounds to infinity. -/

/-- Reads a leading run of digits; returns its value, its length and the
remaining characters. -/
def readDigits : List Char → Nat → Nat → Nat × Nat × List Char
  | c :: rest, acc, len =>
    if isDigitChar c then readDigits rest (10 * acc + digitVal c) (len + 1)
    else (acc, len, c :: rest)
  | [], acc, len => (acc, len, [])

/-- Parses the exponent part `('e'|'E') Sign? Count`; `none` when absent,
`some none` when malformed, `some (some e)` on success. -/
def parseExponent : List Char → Option (Option Int)
  | c :: rest =>
    if c = 'e' ∨ c = 'E' then
      let signed : Int × List Char :=
        match rest with
        | '+' :: r => (1, r)
        | '-' :: r => (-1, r)
        | r => (1, r)
      let parsed := readDigits signed.2 0 0
      if parsed.2.1 = 0 ∨ parsed.2.2 ≠ [] then some none
      else some (some (signed.1 * parsed.1))
    else some none
  | [] => none

/-- The `Number` production: mantissa digits, optional fraction, optional
exponent; the whole input must be consumed. -/
def parseF64Number (l : List Char) : Option ℚ :=
  let ip := readDigits l 0 0
  let intVal := ip.1
  let intLen := ip.2.1
  let afterInt := ip.2.2
  match afterInt with
  | '.' :: rest =>
    let fp := readDigits rest 0 0
    let fracVal := fp.1
    let fracLen := fp.2.1
    let afterFrac := fp.2.2
    if intLen = 0 ∧ fracLen = 0 then none
    else
      let mantissa : ℚ := (intVal : ℚ) + (fracVal : ℚ) / ((10 : ℚ) ^ fracLen)
      match parseExponent afterFrac with
      | none => if afterFrac = [] then some mantissa else none
      | some none => none
      | some (some e) => some (mantissa * (10 : ℚ) ^ e)
  | _ =>
    if intLen = 0 then none
    else
      match parseExponent afterInt with
      | none => if afterInt = [] then some (intVal : ℚ) else none
      | some none => none
      | some (some e) => some ((intVal : ℚ) * (10 : ℚ) ^ e)

/-- The smallest magnitude at which a decimal literal rounds to f64 infinity. -/
def f64Overflow : ℚ :=
  (2 - (1 / 2) ^ 53) * 2 ^ 1023

/-- Rust `value.parse::<f64>()` combined with `is_finite()`: `some q` when the
literal parses and denotes a finite f64, `none` otherwise (parse error, `inf`,
`infinity`, `nan`, or overflow). -/
def rustParseF64Finite (l : List Char) : Option ℚ :=
  let signed : ℚ × List Char :=
    match l with
    | '+' :: r => (1, r)
    | '-' :: r => (-1, r)
    | r => (1, r)
  let low := toLowerChars signed.2
  if low = "inf".data ∨ low = "infinity".data ∨ low = "nan".data then none
  else
    match parseF64Number signed.2 with
    | none => none
    | some q => if q < f64Overflow then some (signed.1 * q) else none

/-! ### Frontmatter property parser and YAML scalars
(`lib.rs`: `unquote_yaml_scalar`, `is_iso_date_value`,
`parse_yaml_frontmatter_properties`) -/

/-- Rust `unquote_yaml_scalar`: trim, and strip one matching pair of
surrounding `"` or `'` quotes.  (The Rust byte-indexed checks coincide with
these character-level checks because the quote characters are ASCII.) -/
def unquote_yaml_scalar (value : List Char) : List Char :=
  let trimmed := trimChars value
  if 2 ≤ trimmed.length ∧
      ((trimmed.head? = some '"' ∧ trimmed.getLast? = some '"') ∨
        (trimmed.head? = some '\'' ∧ trimmed.getLast? = some '\'')) then
    trimmed.drop 1 |>.dropLast
  else trimmed

/-- Rust `is_iso_date_value`: exactly ten characters, digits everywhere except
`'-'` at positions 4 and 7.  Unlike `is_iso_date_token`, the year, month and
day ranges are NOT validated. -/
def is_iso_date_value (l : List Char) : Bool :=
  match l with
  | [y1, y2, y3, y4, d1, m1, m2, d2, a1, a2] =>
    isDigitChar y1 && isDigitChar y2 && isDigitChar y3 && isDigitChar y4 &&
    d1 = '-' && isDigitChar m1 && isDigitChar m2 && d2 = '-' &&
    isDigitChar a1 && isDigitChar a2
  | _ => false

/-- Row of `note_properties` as produced by the frontmatter parser
(`IndexedProperty` in the Rust code; `value_num` is the exact rational of the
parsed f64). -/
structure IndexedProperty where
  key : String
  kind : String
  value_text : Option String
  value_num : Option ℚ
  value_bool : Option Int
  value_date : Option String
deriving Repr, DecidableEq

/-- Classification of a non-empty, non-list scalar value (the tail of the
`parse_yaml_frontmatter_properties` loop body: bool, then finite number, then
date shape, then plain text). -/
def scalarProperty (key : String) (valuePart : List Char) : IndexedProperty :=
  let scalar := unquote_yaml_scalar valuePart
  if toLowerChars scalar = "true".data ∨ toLowerChars scalar = "false".data then
    { key := key, kind := "bool", value_text := some (String.mk (toLowerChars scalar)),
      value_num := none,
      value_bool := some (if toLowerChars scalar = "true".data then 1 else 0),
      value_date := none }
  else
    match rustParseF64Finite scalar with
    | some num =>
      { key := key, kind := "number",
        value_text := some (String.mk (toLowerChars scalar)),
        value_num := some num, value_bool := none, value_date := none }
    | none =>
      if is_iso_date_value scalar then
        { key := key, kind := "date",
          value_text := some (String.mk (toLowerChars scalar)),
          value_num := none, value_bool := none,
          value_date := some (String.mk scalar) }
      else
        { key := key, kind := "text",
          value_text := some (String.mk (toLowerChars scalar)),
          value_num := none, value_bool := none, value_date := none }

/-- The inner loop of the `"|"` block-scalar case: consume lines that start
with two spaces (stripped) or are blank (as empty lines), stop at the first
other line.  Returns the collected lines and the remaining input. -/
def takeBlockLines : List (List Char) → List (List Char) × List (List Char)
  | [] => ([], [])
  | next :: rest =>
    if next.take 2 = "  ".data then
      let r := takeBlockLines rest
      (next.drop 2 :: r.1, r.2)
    else if trimChars next = [] then
      let r := takeBlockLines rest
      ([] :: r.1, r.2)
    else ([], next :: rest)

/-- The inner loop of the indented-list case (`key:` with following
`  - item` lines): collects unquoted non-empty items, skips blank lines, stops
at the first other line.  Also reports whether any `  - ` line was consumed. -/
def takeListItems : List (List Char) → List (List Char) × Bool × List (List Char)
  | [] => ([], false, [])
  | next :: rest =>
    if next.take 4 = "  - ".data then
      let item := unquote_yaml_scalar (next.drop 4)
      let r := takeListItems rest
      (if item = [] then r.1 else item :: r.1, true, r.2.2)
    else if trimChars next = [] then
      let r := takeListItems rest
      (r.1, r.2.1, r.2.2)
    else ([], false, next :: rest)

/-- The line loop of `parse_yaml_frontmatter_properties`, processing the lines
of the raw frontmatter.  The `while idx < lines.len()` loop advances `idx` by
at least one per iteration, so running it with `lines.length` as fuel is
exact; the fuel only makes the recursion structural. -/
def parsePropsLoop : Nat → List (List Char) → List IndexedProperty
  | 0, _ => []
  | _, [] => []
  | fuel + 1, line :: rest =>
    let trimmed := trimChars line
    if trimmed = [] ∨ trimmed.head? = some '#' then parsePropsLoop fuel rest
    else if line.head? = some ' ' ∨ line.head? = some '\t' then
      parsePropsLoop fuel rest
    else
      match line.dropWhile (· ≠ ':') with
      | [] => parsePropsLoop fuel rest
      | _colon :: rawValuePart =>
        let rawKey := line.takeWhile (· ≠ ':')
        let key := String.mk (toLowerChars (trimChars rawKey))
        if key = "" then parsePropsLoop fuel rest
        else
          let valuePart := trimStart rawValuePart
          if valuePart = ['|'] then
            let blk := takeBlockLines rest
            { key := key, kind := "text",
              value_text := some (String.mk (toLowerChars (joinLines blk.1))),
              value_num := none, value_bool := none, value_date := none } ::
              parsePropsLoop fuel blk.2
          else if valuePart.head? = some '[' ∧ valuePart.getLast? = some ']' then
            let inner := trimChars (valuePart.drop 1 |>.dropLast)
            (if inner = [] then []
             else
               ((splitChar ',' inner).filterMap (fun item =>
                 let v := unquote_yaml_scalar item
                 if v = [] then none
                 else some
                   { key := key, kind := "list",
                     value_text := some (String.mk (toLowerChars v)),
                     value_num := none, value_bool := none,
                     value_date := none }))) ++ parsePropsLoop fuel rest
          else if valuePart = [] then
            let li := takeListItems rest
            (if li.2.1 then
              li.1.map (fun item =>
                { key := key, kind := "list",
                  value_text := some (String.mk (toLowerChars item)),
                  value_num := none, value_bool := none, value_date := none })
             else
              [{ key := key, kind := "text", value_text := some "",
                 value_num := none, value_bool := none, value_date := none }]) ++
              parsePropsLoop fuel li.2.2
          else scalarProperty key valuePart :: parsePropsLoop fuel rest

/-- Rust `parse_yaml_frontmatter_properties`. -/
def parse_yaml_frontmatter_properties (markdown : String) :
    List IndexedProperty :=
  match extract_yaml_frontmatter markdown.data with
  | none => []
  | some rawYaml =>
    let ls := rustLines rawYaml
    parsePropsLoop ls.length ls

/-! ### Query property filters
(`lib.rs`: `PropertyFilter`, `is_property_key_token`,
`parse_property_filter_token`) -/

/-- The `PropertyFilter` enum of the query engine. -/
inductive PropertyFilter where
  | Has (key : String)
  | EqText (key : String) (value : String)
  | EqBool (key : String) (value : Int)
  | EqNum (key : String) (value : ℚ)
  | EqDate (key : String) (value : String)
  | GtNum (key : String) (value : ℚ)
  | GteNum (key : String) (value : ℚ)
  | LtNum (key : String) (value : ℚ)
  | LteNum (key : String) (value : ℚ)
  | GtDate (key : String) (value : String)
  | GteDate (key : String) (value : String)
  | LtDate (key : String) (value : String)
  | LteDate (key : String) (value : String)
deriving Repr, DecidableEq

/-- Rust `is_property_key_token`: trimmed, non-empty, only ASCII
alphanumerics, `_` and `-`. -/
def is_property_key_token (l : List Char) : Bool :=
  let trimmed := trimChars l
  trimmed ≠ [] && trimmed.all (fun c => c.isAlphanum || c = '_' || c = '-')

/-- Rust `str::find` for a single-character pattern: byte index of the first
occurrence.  (On the ASCII operator characters in play the byte index equals
the character index for the splits taken of it, because everything before the
first occurrence is split off as a whole.)  The model returns the character
index. -/
def findChar (c : Char) : List Char → Option Nat
  | [] => none
  | x :: rest =>
    if x = c then some 0 else (findChar c rest).map (· + 1)

/-- Rust `str::find` for a two-character pattern, returning the character
index of the first occurrence. -/
def findChar2 (a b : Char) : List Char → Option Nat
  | [] => none
  | x :: rest =>
    if x = a ∧ rest.head? = some b then some 0
    else (findChar2 a b rest).map (· + 1)

/-- One iteration of the operator loop of `parse_property_filter_token`: given
the position and character length of the matched operator, split the token,
validate the key, and type the value.  `mkFilter` builds the filter for the
matched operator from the typed value. -/
def filterAtSplit (token : List Char) (position opLen : Nat)
    (isEq : Bool)
    (mkNum : String → ℚ → PropertyFilter)
    (mkDate : String → String → PropertyFilter) : Option PropertyFilter :=
  if position = 0 then none
  else
    let key := toLowerChars (trimChars (token.take position))
    if ¬ is_property_key_token key then none
    else
      let keyS := String.mk key
      let rawValue := trimChars (token.drop (position + opLen))
      if rawValue = [] then none
      else
        let value := unquote_yaml_scalar rawValue
        if isEq then
          if toLowerChars value = "true".data ∨ toLowerChars value = "false".data then
            some (.EqBool keyS (if toLowerChars value = "true".data then 1 else 0))
          else
            match rustParseF64Finite value with
            | some number => some (.EqNum keyS number)
            | none =>
              if is_iso_date_value value then
                some (.EqDate keyS (String.mk value))
              else some (.EqText keyS (String.mk (toLowerChars value)))
        else
          if is_iso_date_value value then some (mkDate keyS (String.mk value))
          else
            match rustParseF64Finite value with
            | some number => some (mkNum keyS number)
            | none => none

/-- Rust `parse_property_filter_token`: `has:` prefix first, then the operator
cascade `>=`, `<=`, `>`, `<`, `:`, `=` — the first operator that occurs
anywhere in the token decides the split.  (For `:` and `=` the numeric/date
builders are irrelevant and `isEq` selects the equality typing.) -/
def parse_property_filter_token (token : List Char) : Option PropertyFilter :=
  let token := trimChars token
  if token = [] then none
  else if token.take 4 = "has:".data then
    let key := toLowerChars (trimChars (token.drop 4))
    if is_property_key_token key then some (.Has (String.mk key)) else none
  else
    match findChar2 '>' '=' token with
    | some p => filterAtSplit token p 2 false .GteNum .GteDate
    | none =>
    match findChar2 '<' '=' token with
    | some p => filterAtSplit token p 2 false .LteNum .LteDate
    | none =>
    match findChar '>' token with
    | some p => filterAtSplit token p 1 false .GtNum .GtDate
    | none =>
    match findChar '<' token with
    | some p => filterAtSplit token p 1 false .LtNum .LtDate
    | none =>
    match findChar ':' token with
    | some p => filterAtSplit token p 1 true .GtNum .GtDate
    | none =>
    match findChar '=' token with
    | some p => filterAtSplit token p 1 true .GtNum .GtDate
    | none => none

/-! ### Hybrid search scoring
(`lib.rs`: `min_max_normalize` and the scoring/sorting tail of
`fts_search_sync`) -/

/-- `f64::EPSILON` as an exact rational. -/
def epsF64 : ℚ := (1 / 2) ^ 52

/-- `HYBRID_LEXICAL_WEIGHT`. -/
def HYBRID_LEXICAL_WEIGHT : ℚ := 35 / 100

/-- `HYBRID_SEMANTIC_WEIGHT`. -/
def HYBRID_SEMANTIC_WEIGHT : ℚ := 65 / 100

/-- `SEARCH_RESULT_LIMIT`. -/
def SEARCH_RESULT_LIMIT : Nat := 25

/-- Rust `min_max_normalize`: `[]` for empty input; all `1.0` when
`|max - min| ≤ f64::EPSILON`; otherwise `(v - min) / (max - min)`.  The folds
from `±INFINITY` over a non-empty list equal folds from the first element. -/
def min_max_normalize (values : List ℚ) : List ℚ :=
  match values with
  | [] => []
  | v :: vs =>
    let mn := vs.foldl min v
    let mx := vs.foldl max v
    if |mx - mn| ≤ epsF64 then values.map (fun _ => 1)
    else values.map (fun x => (x - mn) / (mx - mn))

/-- The `(index, hybrid)` pairs built by `enumerate()` in `fts_search_sync`. -/
def enumFrom (i : Nat) : List ℚ → List (Nat × ℚ)
  | [] => []
  | a :: l => (i, a) :: enumFrom (i + 1) l

/-- One insertion step of a stable descending sort by score: an element is
placed before the first current element whose score is `≤` its own, which is
exactly where Rust's stable `sort_by(|a, b| b.1.partial_cmp(&a.1)…)` leaves
it relative to equal-scored elements. -/
def insertDesc (a : Nat × ℚ) : List (Nat × ℚ) → List (Nat × ℚ)
  | [] => [a]
  | b :: l => if b.2 ≤ a.2 then a :: b :: l else b :: insertDesc a l

/-- Stable descending-by-score sort, modelling the Rust stable `sort_by` with
comparator `b.1.partial_cmp(&a.1)` (scores are never NaN in the model). -/
def sortDesc : List (Nat × ℚ) → List (Nat × ℚ)
  | [] => []
  | a :: l => insertDesc a (sortDesc l)

/-- The normalized semantic component of `fts_search_sync`: min-max-normalized
cosine scores when the embedder produced a query vector, the zero vector
otherwise (the code leaves `semantic_norm = vec![0.0; len]` in that case). -/
def semNormOf (bm25 : List ℚ) (semScores : Option (List ℚ)) : List ℚ :=
  match semScores with
  | some s => min_max_normalize s
  | none => List.replicate bm25.length (0 : ℚ)

/-- The `(original_index, hybrid)` pairs of `fts_search_sync` before sorting:
`bm25` is the list of lexical scores of the candidates in store order (smaller
is better; the code negates before normalizing). -/
def hybridPairs (bm25 : List ℚ) (semScores : Option (List ℚ)) :
    List (Nat × ℚ) :=
  enumFrom 0 (List.zipWith
    (fun l s => l * HYBRID_LEXICAL_WEIGHT + s * HYBRID_SEMANTIC_WEIGHT)
    (min_max_normalize (bm25.map Neg.neg)) (semNormOf bm25 semScores))

/-- The scoring tail of `fts_search_sync`: all `(original_index, hybrid)`
pairs sorted descending by score with stable ties. -/
def hybridRanked (bm25 : List ℚ) (semScores : Option (List ℚ)) :
    List (Nat × ℚ) :=
  sortDesc (hybridPairs bm25 semScores)

/-- The returned hits: the top `SEARCH_RESULT_LIMIT` of the ranked pairs. -/
def ftsSearchHits (bm25 : List ℚ) (semScores : Option (List ℚ)) :
    List (Nat × ℚ) :=
  (hybridRanked bm25 semScores).take SEARCH_RESULT_LIMIT

/-! ### Note keys and workspace paths
(`lib.rs`: `strip_markdown_extension`, `normalize_note_key`,
`normalize_note_key_from_workspace_path`) -/

/-- Rust `Path::extension` + `with_extension("")` restricted to `md` /
`markdown`: on the final `/`-segment, if the part after the last `.` (with a
non-empty stem) is `md`/`markdown` case-insensitively, drop it together with
the dot.  A leading-dot-only filename (`.md`) has no extension. -/
def strip_markdown_extension (path : List Char) : List Char :=
  let segs := splitChar '/' path
  match segs.getLast? with
  | none => path
  | some seg =>
    let afterDot := (seg.reverse.takeWhile (· ≠ '.')).reverse
    if afterDot.length = seg.length then path
    else
      let stemLen := seg.length - afterDot.length - 1
      if stemLen = 0 then path
      else if toLowerChars afterDot = "md".data ∨
          toLowerChars afterDot = "markdown".data then
        joinSegs (segs.dropLast ++ [seg.take stemLen])
      else path
where
  /-- Re-joins `/`-segments. -/
  joinSegs : List (List Char) → List Char
    | [] => []
    | [s] => s
    | s :: rest => s ++ '/' :: joinSegs rest

/-- Rust `normalize_note_key` applied to a workspace-relative path (the
`strip_prefix(root)` step already performed): strip the markdown extension,
`\`→`/`, trim, strip leading `./`, lowercase (+ NFC, identity on ASCII). -/
def noteKeyOfRelPath (relPath : List Char) : List Char :=
  let normalized := strip_markdown_extension relPath
  let key := trimChars (normalized.map (fun c => if c = '\\' then '/' else c))
  normalize_key_text (dropDotSlash key)

/-! ### Semantic edge refresher (`lib.rs`: `refresh_semantic_edges_cache`) -/

/-- `SEMANTIC_TOP_K_PER_NOTE`. -/
def SEMANTIC_TOP_K_PER_NOTE : Nat := 3

/-- `SEMANTIC_THRESHOLD` (0.62). -/
def SEMANTIC_THRESHOLD : ℚ := 62 / 100

/-- Rust `f32::clamp(0.0, 1.0)`: the lower bound if below it, the upper bound
if above it, the value otherwise. -/
def clamp01 (q : ℚ) : ℚ :=
  if q < 0 then 0 else if 1 < q then 1 else q

/-- A row of the `semantic_edges` table (the model also records the k-NN
distance the row was derived from, which the code reads from the vector
table but does not store). -/
structure SemanticEdge where
  source_path : String
  target_path : String
  score : ℚ
  distance : ℚ
deriving Repr, DecidableEq

/-- The row loop of `refresh_semantic_edges_cache` for one source:
skip self, convert distance to similarity `clamp(1 − d²/2, 0, 1)`, drop below
threshold, drop targets without a key or with an existing explicit link, stop
after `SEMANTIC_TOP_K_PER_NOTE` insertions. -/
def refreshRows (links : List (String × String)) (keyOf : String → Option String)
    (source : String) : List (String × ℚ) → Nat → List SemanticEdge
  | [], _ => []
  | (target, distance) :: rest, added =>
    if target = source then refreshRows links keyOf source rest added
    else
      let score := clamp01 (1 - distance * distance * (1 / 2))
      if score < SEMANTIC_THRESHOLD then refreshRows links keyOf source rest added
      else
        match keyOf target with
        | none => refreshRows links keyOf source rest added
        | some targetKey =>
          if (source, targetKey) ∈ links then
            refreshRows links keyOf source rest added
          else
            let edge : SemanticEdge :=
              { source_path := source, target_path := target,
                score := score, distance := distance }
            if SEMANTIC_TOP_K_PER_NOTE ≤ added + 1 then [edge]
            else edge :: refreshRows links keyOf source rest (added + 1)

/-- Rust `refresh_semantic_edges_cache` after the `DELETE FROM semantic_edges`
wipe: for every source path holding a decodable note embedding (in
lowercase-sorted order), query the vector table for the
`SEMANTIC_TOP_K_PER_NOTE + 1` nearest rows (`knn source`, modelling the
`LIMIT ?2` query result) and run the row loop.  The resulting list is the new
content of `semantic_edges`. -/
def refresh_semantic_edges_cache (links : List (String × String))
    (keyOf : String → Option String) (knn : String → List (String × ℚ))
    (sources : List String) : List SemanticEdge :=
  (sortByKeyLower sources).flatMap
    (fun s => refreshRows links keyOf s ((knn s).take (SEMANTIC_TOP_K_PER_NOTE + 1)) 0)
where
  /-- Rust `sort_by_key(|item| item.to_lowercase())` (stable insertion). -/
  sortByKeyLower (l : List String) : List String :=
    l.foldr (fun a acc => insertLower a acc) []
  /-- Stable insertion before the first element with a `≥` lowercase key. -/
  insertLower (a : String) : List String → List String
    | [] => [a]
    | b :: l =>
      if String.mk (toLowerChars a.data) ≤ String.mk (toLowerChars b.data)
      then a :: b :: l else b :: insertLower a l

/-! ### Full rebuild with cooperative cancellation
(`lib.rs`: `rebuild_workspace_index_sync`, `request_index_cancel`) -/

/-- The observable result of `rebuild_workspace_index_sync`: the returned
`RebuildIndexResult` plus whether the final semantic-edge refresh ran. -/
structure RebuildOutcome where
  indexed_files : Nat
  canceled : Bool
  refreshed : Bool
deriving Repr, DecidableEq

/-- The `for candidate in markdown_files` loop: `flag i` is the value of the
process-global `INDEX_CANCEL_REQUESTED` at the i-th poll (the poll before the
i-th file).  On an observed `true` the loop breaks before processing that
file; otherwise the file is indexed.  (Per-file canonicalization and indexing
are abstracted as always succeeding; they do not interact with the flag.) -/
def rebuildLoop (flag : Nat → Bool) : Nat → List String → Nat × Bool
  | _, [] => (0, false)
  | i, _ :: rest =>
    if flag i then (0, true)
    else
      let r := rebuildLoop flag (i + 1) rest
      (r.1 + 1, r.2)

/-- Rust `rebuild_workspace_index_sync` after the table wipe: run the loop;
the final `refresh_semantic_edges_cache` runs exactly when the loop was not
canceled. -/
def rebuild_workspace_index (flag : Nat → Bool) (files : List String) :
    RebuildOutcome :=
  let r := rebuildLoop flag 0 files
  { indexed_files := r.1, canceled := r.2, refreshed := !r.2 }

/-! ### Embedder helpers (`semantic.rs`: `normalize_in_place`, `centroid`,
`vector_to_blob`, `blob_to_vector`) -/

/-- `f32::EPSILON` as an exact rational. -/
def epsF32 : ℚ := (1 / 2) ^ 23

/-- Rust `normalize_in_place`: divide by the L2 norm unless the squared norm
is `≤ f32::EPSILON`.  f32 arithmetic is modelled over `ℚ`; the machine square
root is an opaque parameter `sqrt`. -/
def normalize_in_place (sqrt : ℚ → ℚ) (vector : List ℚ) : List ℚ :=
  let normSq := (vector.map (fun v => v * v)).sum
  if normSq ≤ epsF32 then vector
  else vector.map (fun v => v / sqrt normSq)

/-- Element-wise accumulation `out[i] += v[i]` over all vectors, starting from
`vec![0.0; dim]`. -/
def sumVectors (dim : Nat) (vectors : List (List ℚ)) : List ℚ :=
  vectors.foldl (fun acc v => List.zipWith (· + ·) acc v)
    (List.replicate dim (0 : ℚ))

/-- Rust `centroid`: `None` on empty input, an empty first vector, or any
dimension mismatch; otherwise the element-wise mean, normalized. -/
def centroid (sqrt : ℚ → ℚ) (vectors : List (List ℚ)) : Option (List ℚ) :=
  match vectors with
  | [] => none
  | first :: _ =>
    if first = [] then none
    else if vectors.any (fun item => item.length ≠ first.length) then none
    else
      let dim := first.length
      let denom : ℚ := vectors.length
      let mean := (sumVectors dim vectors).map (fun v => v / denom)
      some (normalize_in_place sqrt mean)

/-- Little-endian byte expansion of one f32 bit pattern (a 32-bit word). -/
def leBytes (w : Nat) : List Nat :=
  [w % 256, w / 256 % 256, w / 256 ^ 2 % 256, w / 256 ^ 3 % 256]

/-- Rust `vector_to_blob`: f32 values are modelled by their 32-bit bit
patterns; each contributes its four little-endian bytes. -/
def vector_to_blob (vector : List Nat) : List Nat :=
  vector.flatMap (fun w => leBytes (w % 2 ^ 32))

/-- The `chunks_exact(4)` + `from_le_bytes` loop. -/
def wordsOfBytes : List Nat → List Nat
  | b0 :: b1 :: b2 :: b3 :: rest =>
    (b0 + 256 * b1 + 256 ^ 2 * b2 + 256 ^ 3 * b3) :: wordsOfBytes rest
  | _ => []

/-- Rust `blob_to_vector`: `None` when `dim = 0` or the blob length is not
`dim * 4`; otherwise the decoded 32-bit words. -/
def blob_to_vector (blob : List Nat) (dim : Nat) : Option (List Nat) :=
  if dim = 0 ∨ blob.length ≠ dim * 4 then none
  else some (wordsOfBytes blob)

/-! ### Index removal (`lib.rs`: `remove_markdown_file_from_index_sync`) -/

/-- A `note_links` row. -/
structure NoteLinkRow where
  source_path : String
  target_key : String
deriving Repr, DecidableEq

/-- A `semantic_edges` row as stored (no distance). -/
structure StoredEdgeRow where
  source_path : String
  target_path : String
  score : ℚ
deriving Repr, DecidableEq

/-- The index tables touched by removal; rows not keyed by a path carry an
opaque payload `String`. -/
structure IndexDb where
  chunks : List (String × String)
  note_links : List NoteLinkRow
  note_properties : List (String × String)
  note_embeddings : List (String × String)
  vec_rows : List String
  semantic_edges : List StoredEdgeRow
deriving Repr, DecidableEq

/-- The transactional body of `remove_markdown_file_from_index_sync` for the
workspace-relative path `p` (whose normalized note key is
`noteKeyOfRelPath p.data`): the six `DELETE` statements. -/
def remove_markdown_file_from_index (db : IndexDb) (p : String) : IndexDb :=
  let sourceKey := String.mk (noteKeyOfRelPath p.data)
  { chunks := db.chunks.filter (fun c => c.1 ≠ p)
    note_links := db.note_links.filter
      (fun l => ¬(l.source_path = p ∨ l.target_key = sourceKey))
    note_properties := db.note_properties.filter (fun r => r.1 ≠ p)
    note_embeddings := db.note_embeddings.filter (fun r => r.1 ≠ p)
    vec_rows := db.vec_rows.filter (fun r => r ≠ p)
    semantic_edges := db.semantic_edges.filter
      (fun e => ¬(e.source_path = p ∨ e.target_path = p)) }

/-! ### Spec-side definitions used for refinement comparisons -/

/-- Modelled from the spec's words (§4.2): the wiki-link target is "the
substring before the first `|` or `#`, whichever comes first". -/
def specWikilinkTarget (content : List Char) : List Char :=
  content.takeWhile (fun c => ¬(c = '|' ∨ c = '#'))

/-! ## Theorems -/

/-! ### C1: chunking by headings -/

theorem headingData_isSome (line : List Char) :
    (headingData line).isSome ↔
      1 ≤ (line.takeWhile (· = '#')).length ∧
        (line.takeWhile (· = '#')).length ≤ 6 ∧
        trimChars (line.drop (line.takeWhile (· = '#')).length) ≠ [] := by
  simp only [headingData]
  split_ifs with h1 h2 <;> simp_all

theorem takeWhile_replicate_hash (n : Nat) (title : List Char)
    (h : title.head? ≠ some '#') :
    (List.replicate n '#' ++ title).takeWhile (· = '#') =
      List.replicate n '#' := by
  induction n with
  | zero =>
    cases title with
    | nil => simp
    | cons c t =>
      simp only [List.replicate, List.nil_append, List.takeWhile_cons]
      simp only [List.head?_cons, ne_eq, Option.some.injEq] at h
      simp [h]
  | succ n ih =>
    simp only [List.replicate_succ, List.cons_append, List.takeWhile_cons]
    simp [ih]

theorem mem_takeWhile_hash {line : List Char} {c : Char}
    (h : c ∈ line.takeWhile (· = '#')) : c = '#' := by
  have := List.mem_takeWhile_imp h
  simpa using this

theorem dropWhile_eq_drop_length_takeWhile (l : List Char) (p : Char → Bool) :
    l.dropWhile p = l.drop (l.takeWhile p).length := by
  induction l with
  | nil => simp
  | cons c rest ih =>
    by_cases h : p c
    · simp [List.takeWhile_cons, List.dropWhile_cons, h, ih]
    · simp [List.takeWhile_cons, List.dropWhile_cons, h]

theorem head?_drop_takeWhile_hash (line : List Char) :
    (line.drop (line.takeWhile (· = '#')).length).head? ≠ some '#' := by
  induction line with
  | nil => simp
  | cons c rest ih =>
    by_cases hc : c = '#'
    · subst hc
      simpa [List.takeWhile_cons] using ih
    · simp [List.takeWhile_cons, hc]

/-- C1 (corrected).  A new chunk starts exactly at lines whose leading run of
1–6 `'#'` characters is followed by a remainder that is non-empty after
trimming; whitespace between the `'#'` run and the title is NOT required
(`title = line[level..].trim()` accepts `#Title`).  The body
`"# A\nx\n## B\ny"` yields exactly the chunks `("a", "A\nx")` and
`("b", "B\ny")`, and the heading-shaped line without whitespace `"#B"` also
starts a chunk. -/
theorem C1_chunk_boundaries :
    (chunk_markdown "# A\nx\n## B\ny" = [("a", "A\nx"), ("b", "B\ny")]) ∧
    (∀ line : List Char,
      (headingData line).isSome ↔
        ∃ n title, 1 ≤ n ∧ n ≤ 6 ∧
          line = List.replicate n '#' ++ title ∧
          title.head? ≠ some '#' ∧ trimChars title ≠ []) ∧
    (∀ anchor cur raw rest a t, headingData (trimEnd raw) = some (a, t) →
      chunkLoop anchor cur (raw :: rest) =
        flushChunk anchor cur ++ chunkLoop a [t] rest) ∧
    (∀ anchor cur raw rest, headingData (trimEnd raw) = none →
      chunkLoop anchor cur (raw :: rest) =
        chunkLoop anchor (cur ++ [trimEnd raw]) rest) ∧
    (chunk_markdown "x\n#B\ny" = [("", "x"), ("b", "B\ny")]) := by
  refine ⟨by decide, ?_, ?_, ?_, by decide⟩
  · intro line
    rw [headingData_isSome]
    constructor
    · rintro ⟨h1, h2, h3⟩
      have htw : line.takeWhile (· = '#') =
          List.replicate (line.takeWhile (· = '#')).length '#' :=
        List.eq_replicate_of_mem (fun _ hb => mem_takeWhile_hash hb)
      have hline : line =
          List.replicate (line.takeWhile (· = '#')).length '#' ++
            line.drop (line.takeWhile (· = '#')).length := by
        conv_lhs =>
          rw [← List.takeWhile_append_dropWhile (· = '#') line]
        rw [← htw, ← dropWhile_eq_drop_length_takeWhile]
      exact ⟨(line.takeWhile (· = '#')).length,
        line.drop (line.takeWhile (· = '#')).length, h1, h2, hline,
        head?_drop_takeWhile_hash line, h3⟩
    · rintro ⟨n, title, h1, h2, rfl, hh, ht⟩
      rw [takeWhile_replicate_hash n title hh]
      refine ⟨by simpa using h1, by simpa using h2, ?_⟩
      rw [List.length_replicate, List.drop_left' (List.length_replicate n '#')]
      exact ht
  · intro anchor cur raw rest a t h
    simp [chunkLoop, h]
  · intro anchor cur raw rest h
    simp [chunkLoop, h]

/-- Closed instantiation of the quantified heading-boundary part of
`C1_chunk_boundaries`. -/
theorem C1_chunk_boundaries_witness :
    chunkLoop [] [] ("# T".data :: []) =
      flushChunk [] [] ++ chunkLoop "t".data ["T".data] [] :=
  C1_chunk_boundaries.2.2.1 [] [] "# T".data [] "t".data "T".data (by decide)

/-- C1 as stated is false: the claim says a line whose `'#'` run is not
followed by whitespace does not start a chunk, so `"x\n#B\ny"` would be a
single chunk; the code makes `"#B"` start a second chunk. -/
theorem C1_counterexample :
    chunk_markdown "x\n#B\ny" = [("", "x"), ("b", "B\ny")] ∧
    (chunk_markdown "x\n#B\ny").length ≠ 1 := by
  constructor <;> decide

/-! ### C2: wiki-link target extraction -/

theorem takeWhile_takeWhile_comp (p q : Char → Bool) (l : List Char) :
    (l.takeWhile q).takeWhile p = l.takeWhile (fun c => q c && p c) := by
  induction l with
  | nil => simp
  | cons c rest ih =>
    by_cases hq : q c <;> by_cases hp : p c <;>
      simp [List.takeWhile_cons, hq, hp, ih]

/-- C2 (confirmed).  Splitting the wiki-link content on `'|'` first and then
on `'#'` yields exactly the substring before the first occurrence of either
separator, and the example body yields the target set
`{"folder/note", "journal/2026-03-01"}`. -/
theorem C2_wikilink_first_separator :
    (∀ content : List Char,
      wikilinkRawTarget content = trimChars (specWikilinkTarget content)) ∧
    parse_note_targets "See [[Folder/Note|Label#Intro]] on 2026-03-01" =
      {"folder/note", "journal/2026-03-01"} := by
  refine ⟨?_, by decide⟩
  intro content
  unfold wikilinkRawTarget specWikilinkTarget
  rw [takeWhile_takeWhile_comp]
  congr 2
  funext c
  by_cases h1 : c = '|' <;> by_cases h2 : c = '#' <;> simp [h1, h2]

/-! ### C3: inequality property filters -/

theorem findChar_none {x : Char} {l : List Char} (h : ∀ c ∈ l, c ≠ x) :
    findChar x l = none := by
  induction l with
  | nil => rfl
  | cons c rest ih =>
    have hc := h c (by simp)
    simp only [findChar, if_neg hc]
    rw [ih (fun d hd => h d (by simp [hd]))]
    rfl

theorem findChar_append {x : Char} {key rest : List Char}
    (h : ∀ c ∈ key, c ≠ x) :
    findChar x (key ++ x :: rest) = some key.length := by
  induction key with
  | nil => simp [findChar]
  | cons c kt ih =>
    have hc := h c (by simp)
    simp only [List.cons_append, findChar, if_neg hc, List.append_eq]
    rw [ih (fun d hd => h d (by simp [hd]))]
    simp

theorem findChar2_none_absent {a b : Char} {l : List Char}
    (h : ∀ c ∈ l, c ≠ a) : findChar2 a b l = none := by
  induction l with
  | nil => rfl
  | cons c rest ih =>
    have hc := h c (by simp)
    simp only [findChar2]
    rw [if_neg (by simp [hc]), ih (fun d hd => h d (by simp [hd]))]
    rfl

theorem findChar2_single {a b : Char} {key rest : List Char}
    (hk : ∀ c ∈ key, c ≠ a) (hr : ∀ c ∈ rest, c ≠ a)
    (hh : rest.head? ≠ some b) :
    findChar2 a b (key ++ a :: rest) = none := by
  induction key with
  | nil =>
    simp only [List.nil_append, findChar2]
    rw [if_neg (by simp [hh]), findChar2_none_absent hr]
    rfl
  | cons c kt ih =>
    have hc := hk c (by simp)
    simp only [List.cons_append, findChar2, List.append_eq]
    rw [if_neg (by simp [hc]), ih (fun d hd => hk d (by simp [hd]))]
    rfl

theorem findChar2_append {a b : Char} {key rest : List Char}
    (hk : ∀ c ∈ key, c ≠ a) :
    findChar2 a b (key ++ a :: b :: rest) = some key.length := by
  induction key with
  | nil => simp [findChar2]
  | cons c kt ih =>
    have hc := hk c (by simp)
    simp only [List.cons_append, findChar2, List.append_eq]
    rw [if_neg (by simp [hc]), ih (fun d hd => hk d (by simp [hd]))]
    simp

/-- The valid property-key characters. -/
def isKeyChar (c : Char) : Bool :=
  c.isAlphanum || c = '_' || c = '-'

theorem isKeyChar_not_ws {c : Char} (h : isKeyChar c = true) :
    c.isWhitespace = false := by
  by_contra hw
  simp only [Bool.not_eq_false] at hw
  have hcases : ((c = ' ' ∨ c = '\t') ∨ c = '\r') ∨ c = '\n' := by
    simpa [Char.isWhitespace] using hw
  rcases hcases with ((rfl | rfl) | rfl) | rfl <;>
    simp [isKeyChar, Char.isAlphanum, Char.isDigit, Char.isAlpha,
      Char.isUpper, Char.isLower] at h

theorem isKeyChar_toLower {c : Char} (h : isKeyChar c = true) :
    isKeyChar c.toLower = true := by
  simp only [Char.toLower]
  split
  · next hrange =>
    have h65 : 65 ≤ Char.toNat c := hrange.1
    have h90 : Char.toNat c ≤ 90 := hrange.2
    have hv : (Char.toNat c + 32).isValidChar := by
      left
      have : Char.toNat c + 32 < 122 + 1 := by omega
      simpa using Nat.lt_trans this (by norm_num)
    have htn : (Char.ofNat (Char.toNat c + 32)).toNat = Char.toNat c + 32 := by
      unfold Char.ofNat
      rw [dif_pos hv]
      rfl
    have hlow : (Char.ofNat (Char.toNat c + 32)).isLower = true := by
      simp only [Char.isLower, Bool.and_eq_true, decide_eq_true_eq, ge_iff_le]
      constructor
      · show (97 : UInt32) ≤ _
        rw [UInt32.le_def, BitVec.le_def]
        show 97 ≤ (Char.ofNat (Char.toNat c + 32)).toNat
        omega
      · show _ ≤ (122 : UInt32)
        rw [UInt32.le_def, BitVec.le_def]
        show (Char.ofNat (Char.toNat c + 32)).toNat ≤ 122
        omega
    simp [isKeyChar, Char.isAlphanum, Char.isAlpha, hlow]
  · exact h

theorem trimChars_of_key {key : List Char} (h : ∀ c ∈ key, isKeyChar c) :
    trimChars key = key := by
  have hs : trimStart key = key := by
    unfold trimStart
    cases key with
    | nil => rfl
    | cons c kt =>
      rw [List.dropWhile_cons_of_neg]
      simp [isKeyChar_not_ws (h c (by simp))]
  have he : trimEnd key = key := by
    unfold trimEnd
    cases hk : key.reverse with
    | nil => simpa using congrArg List.reverse hk
    | cons c kt =>
      have hc : c ∈ key := by
        have : c ∈ key.reverse := by simp [hk]
        simpa using this
      rw [List.dropWhile_cons_of_neg (by
        simp [isKeyChar_not_ws (h c hc)])]
      rw [← hk]
      simp
  unfold trimChars
  rw [hs, he]

theorem is_property_key_token_of_chars {key : List Char} (hne : key ≠ [])
    (h : ∀ c ∈ key, isKeyChar c) : is_property_key_token key = true := by
  unfold is_property_key_token
  rw [trimChars_of_key h]
  simp only [Bool.and_eq_true, decide_eq_true_eq, ne_eq, List.all_eq_true]
  exact ⟨hne, fun c hc => by simpa [isKeyChar] using h c hc⟩

theorem trimStart_eq_of_head {l : List Char} {c : Char} (h : l.head? = some c)
    (hw : c.isWhitespace = false) : trimStart l = l := by
  cases l with
  | nil => rfl
  | cons x rest =>
    simp only [List.head?_cons, Option.some.injEq] at h
    subst h
    unfold trimStart
    rw [List.dropWhile_cons_of_neg (by simp [hw])]

theorem trimEnd_eq_of_getLast {l : List Char} {c : Char}
    (h : l.getLast? = some c) (hw : c.isWhitespace = false) : trimEnd l = l := by
  unfold trimEnd
  cases hr : l.reverse with
  | nil => simpa using congrArg List.reverse hr
  | cons x rest =>
    have hx : x = c := by
      have := List.head?_reverse l
      rw [hr] at this
      simp only [List.head?_cons] at this
      rw [h] at this
      exact Option.some.inj this
    subst hx
    rw [List.dropWhile_cons_of_neg (by simp [hw]), ← hr]
    simp

theorem trimChars_eq_of_ends {l : List Char} {c d : Char}
    (hh : l.head? = some c) (hcw : c.isWhitespace = false)
    (hl : l.getLast? = some d) (hdw : d.isWhitespace = false) :
    trimChars l = l := by
  unfold trimChars
  rw [trimStart_eq_of_head hh hcw, trimEnd_eq_of_getLast hl hdw]

theorem getLast?_append_right {l₁ l₂ : List Char} (h : l₂ ≠ []) :
    (l₁ ++ l₂).getLast? = l₂.getLast? := by
  rw [List.getLast?_append]
  cases hl : l₂.getLast? with
  | none => exact absurd (List.getLast?_eq_none_iff.mp hl) h
  | some x => rfl

theorem isKeyChar_ne_ops {c : Char} (h : isKeyChar c = true) :
    c ≠ '>' ∧ c ≠ '<' ∧ c ≠ '=' ∧ c ≠ ':' := by
  refine ⟨?_, ?_, ?_, ?_⟩ <;> rintro rfl <;> simp [isKeyChar] at h

/-- The `has:` prefix check fails on `key ++ op ++ value` for a valid key and
an inequality operator. -/
theorem take4_ne_has {key op value : List Char}
    (hop : op ∈ [">".data, ">=".data, "<".data, "<=".data])
    (hkne : key ≠ []) (hkc : ∀ c ∈ key, isKeyChar c = true) :
    (key ++ op ++ value).take 4 ≠ "has:".data := by
  simp only [List.mem_cons, List.not_mem_nil, or_false] at hop
  intro htake
  match key, hkne with
  | [k0], _ =>
    rcases hop with rfl | rfl | rfl | rfl <;> simp_all [List.take]
  | [k0, k1], _ =>
    rcases hop with rfl | rfl | rfl | rfl <;> simp_all [List.take]
  | [k0, k1, k2], _ =>
    rcases hop with rfl | rfl | rfl | rfl <;> simp_all [List.take]
  | k0 :: k1 :: k2 :: k3 :: kt, _ =>
    have hk3 : isKeyChar k3 = true := hkc k3 (by simp)
    have : k3 = ':' := by
      simp [List.take] at htake
      exact htake.2.2.2
    rw [this] at hk3
    simp [isKeyChar] at hk3

/-- Evaluation of `filterAtSplit` at the operator position on a well-formed
`key ++ op ++ value` token, inequality branch. -/
theorem filterAtSplit_ineq_isSome (key op value : List Char)
    (mkNum : String → ℚ → PropertyFilter)
    (mkDate : String → String → PropertyFilter)
    (hkne : key ≠ []) (hkc : ∀ c ∈ key, isKeyChar c = true)
    (hvne : value ≠ [])
    (hvh : ∀ c, value.head? = some c → c.isWhitespace = false)
    (hvl : ∀ c, value.getLast? = some c → c.isWhitespace = false) :
    ((filterAtSplit (key ++ op ++ value) key.length op.length false
        mkNum mkDate).isSome = true) ↔
      (is_iso_date_value (unquote_yaml_scalar value) = true ∨
        (rustParseF64Finite (unquote_yaml_scalar value)).isSome = true) := by
  have hklen : key.length ≠ 0 := by simpa using hkne
  have htake : (key ++ op ++ value).take key.length = key := by
    rw [List.append_assoc, List.take_left]
  have hdrop : (key ++ op ++ value).drop (key.length + op.length) = value :=
    List.drop_left' (by simp)
  have htrimk : trimChars key = key := trimChars_of_key hkc
  have hkeyvalid : is_property_key_token (toLowerChars key) = true := by
    refine is_property_key_token_of_chars
      (by simpa [toLowerChars, List.map_eq_nil_iff] using hkne) ?_
    intro c hc
    rcases List.mem_map.mp hc with ⟨d, hd, rfl⟩
    exact isKeyChar_toLower (hkc d hd)
  have htrimv : trimChars value = value := by
    obtain ⟨v0, vt, rfl⟩ : ∃ v0 vt, value = v0 :: vt := by
      cases value with
      | nil => exact absurd rfl hvne
      | cons a b => exact ⟨a, b, rfl⟩
    exact trimChars_eq_of_ends (c := v0) (d := (v0 :: vt).getLast (by simp))
      rfl (hvh v0 rfl) (List.getLast?_eq_getLast _ (by simp))
      (hvl _ (List.getLast?_eq_getLast _ (by simp)))
  unfold filterAtSplit
  rw [if_neg hklen, htake, htrimk]
  rw [if_neg (by simp [hkeyvalid])]
  rw [hdrop, htrimv, if_neg hvne]
  by_cases hdate : is_iso_date_value (unquote_yaml_scalar value) = true
  · simp [hdate]
  · cases hp : rustParseF64Finite (unquote_yaml_scalar value) <;>
      simp [hdate, hp]

/-- C3 (corrected).  For inequality tokens `key op value` with
`op ∈ {>, >=, <, <=}`, a property filter is produced exactly when the value
parses as a finite number or merely has the ten-character digit-dash shape
`YYYY-MM-DD`; the year/month/day ranges are NOT validated
(`is_iso_date_value` checks the shape only). -/
theorem C3_inequality_filter_typing :
    ∀ key op value : List Char,
      op ∈ [">".data, ">=".data, "<".data, "<=".data] →
      key ≠ [] → (∀ c ∈ key, isKeyChar c = true) →
      value ≠ [] →
      (∀ c ∈ value, c ≠ '>' ∧ c ≠ '<' ∧ c ≠ '=') →
      (∀ c, value.head? = some c → c.isWhitespace = false) →
      (∀ c, value.getLast? = some c → c.isWhitespace = false) →
      ((parse_property_filter_token (key ++ op ++ value)).isSome = true ↔
        (is_iso_date_value (unquote_yaml_scalar value) = true ∨
          (rustParseF64Finite (unquote_yaml_scalar value)).isSome = true)) := by
  intro key op value hop hkne hkc hvne hvc hvh hvl
  have hvhead : ∀ b : Char, value.head? ≠ some b ∨
      (b ≠ '>' ∧ b ≠ '<' ∧ b ≠ '=') := by
    intro b
    by_cases hb : value.head? = some b
    · right
      exact hvc b (List.mem_of_mem_head? hb)
    · left; exact hb
  have hkops : ∀ c ∈ key, c ≠ '>' ∧ c ≠ '<' ∧ c ≠ '=' ∧ c ≠ ':' :=
    fun c hc => isKeyChar_ne_ops (hkc c hc)
  have htok_ne : key ++ op ++ value ≠ [] := by
    simp [hkne]
  have htrimtok : trimChars (key ++ op ++ value) = key ++ op ++ value := by
    obtain ⟨k0, kt, hk⟩ : ∃ k0 kt, key = k0 :: kt := by
      cases key with
      | nil => exact absurd rfl hkne
      | cons a b => exact ⟨a, b, rfl⟩
    refine trimChars_eq_of_ends (c := k0)
      (d := value.getLast hvne) ?_ ?_ ?_ ?_
    · rw [hk]; rfl
    · exact isKeyChar_not_ws (hkc k0 (by simp [hk]))
    · rw [getLast?_append_right hvne]
      exact List.getLast?_eq_getLast value hvne
    · exact hvl _ (List.getLast?_eq_getLast value hvne)
  unfold parse_property_filter_token
  rw [htrimtok]
  rw [if_neg (by simpa using htok_ne)]
  rw [if_neg (take4_ne_has hop hkne hkc)]
  simp only [List.mem_cons, List.not_mem_nil, or_false] at hop
  have hhead_ne : value.head? ≠ some '=' := by
    cases hv : value with
    | nil => exact absurd hv hvne
    | cons v0 vt =>
      simp only [List.head?_cons, ne_eq, Option.some.injEq]
      rintro rfl
      exact (hvc '=' (by simp [hv])).2.2 rfl
  rcases hop with rfl | rfl | rfl | rfl
  · -- op = ">": token is key ++ '>' :: value
    have hform : key ++ ">".data ++ value = key ++ '>' :: value := by simp
    rw [hform]
    rw [findChar2_single (fun c hc => (hkops c hc).1)
      (fun c hc => (hvc c hc).1) hhead_ne]
    rw [findChar2_none_absent (l := key ++ '>' :: value) (by
      intro c hc
      rcases List.mem_append.mp hc with hck | hcv
      · exact (hkops c hck).2.1
      · rcases List.mem_cons.mp hcv with rfl | hcv'
        · decide
        · exact (hvc c hcv').2.1)]
    rw [findChar_append (fun c hc => (hkops c hc).1)]
    have := filterAtSplit_ineq_isSome key ">".data value .GtNum .GtDate
      hkne hkc hvne hvh hvl
    rw [hform] at this
    simpa using this
  · -- op = ">=": token is key ++ '>' :: '=' :: value
    have hform : key ++ ">=".data ++ value = key ++ '>' :: '=' :: value := by
      simp
    rw [hform]
    rw [findChar2_append (fun c hc => (hkops c hc).1)]
    have := filterAtSplit_ineq_isSome key ">=".data value .GteNum .GteDate
      hkne hkc hvne hvh hvl
    rw [hform] at this
    simpa using this
  · -- op = "<": token is key ++ '<' :: value
    have hform : key ++ "<".data ++ value = key ++ '<' :: value := by simp
    rw [hform]
    rw [findChar2_none_absent (l := key ++ '<' :: value) (by
      intro c hc
      rcases List.mem_append.mp hc with hck | hcv
      · exact (hkops c hck).1
      · rcases List.mem_cons.mp hcv with rfl | hcv'
        · decide
        · exact (hvc c hcv').1)]
    rw [findChar2_single (fun c hc => (hkops c hc).2.1)
      (fun c hc => (hvc c hc).2.1) hhead_ne]
    rw [findChar_none (l := key ++ '<' :: value) (by
      intro c hc
      rcases List.mem_append.mp hc with hck | hcv
      · exact (hkops c hck).1
      · rcases List.mem_cons.mp hcv with rfl | hcv'
        · decide
        · exact (hvc c hcv').1)]
    rw [findChar_append (fun c hc => (hkops c hc).2.1)]
    have := filterAtSplit_ineq_isSome key "<".data value .LtNum .LtDate
      hkne hkc hvne hvh hvl
    rw [hform] at this
    simpa using this
  · -- op = "<=": token is key ++ '<' :: '=' :: value
    have hform : key ++ "<=".data ++ value = key ++ '<' :: '=' :: value := by
      simp
    rw [hform]
    rw [findChar2_none_absent (l := key ++ '<' :: '=' :: value) (by
      intro c hc
      rcases List.mem_append.mp hc with hck | hcv
      · exact (hkops c hck).1
      · rcases List.mem_cons.mp hcv with rfl | hcv'
        · decide
        · rcases List.mem_cons.mp hcv' with rfl | hcv''
          · decide
          · exact (hvc c hcv'').1)]
    rw [findChar2_append (fun c hc => (hkops c hc).2.1)]
    have := filterAtSplit_ineq_isSome key "<=".data value .LteNum .LteDate
      hkne hkc hvne hvh hvl
    rw [hform] at this
    simpa using this

/-- Closed instantiation of `C3_inequality_filter_typing` at
`deadline>=2026-01-01`. -/
theorem C3_inequality_filter_typing_witness :
    (parse_property_filter_token ("deadline".data ++ ">=".data ++
        "2026-01-01".data)).isSome = true ↔
      (is_iso_date_value (unquote_yaml_scalar "2026-01-01".data) = true ∨
        (rustParseF64Finite (unquote_yaml_scalar "2026-01-01".data)).isSome
          = true) :=
  C3_inequality_filter_typing "deadline".data ">=".data "2026-01-01".data
    (by decide) (by decide) (by decide) (by decide) (by decide) (by decide)
    (by decide)

/-- C3 as stated is false: `d>0000-13-40` produces a date filter although
`0000-13-40` is not a valid ISO date (month 13, day 40, year 0) and does not
parse as a finite number. -/
theorem C3_counterexample :
    parse_property_filter_token "d>0000-13-40".data =
      some (.GtDate "d" "0000-13-40") ∧
    is_iso_date_token "0000-13-40".data = false ∧
    rustParseF64Finite "0000-13-40".data = none := by
  refine ⟨by decide, by decide, by decide⟩

/-! ### C4: hybrid fusion bounds, ordering and stability -/

theorem foldl_min_le_init (l : List ℚ) (a : ℚ) : l.foldl min a ≤ a := by
  induction l generalizing a with
  | nil => simp
  | cons x rest ih => exact le_trans (ih (min a x)) (min_le_left a x)

theorem foldl_min_le_mem {l : List ℚ} {x : ℚ} (h : x ∈ l) (a : ℚ) :
    l.foldl min a ≤ x := by
  induction l generalizing a with
  | nil => simp at h
  | cons y rest ih =>
    rcases List.mem_cons.mp h with rfl | hx
    · exact le_trans (foldl_min_le_init rest (min a x)) (min_le_right a x)
    · exact ih hx (min a y)

theorem le_foldl_max_init (l : List ℚ) (a : ℚ) : a ≤ l.foldl max a := by
  induction l generalizing a with
  | nil => simp
  | cons x rest ih => exact le_trans (le_max_left a x) (ih (max a x))

theorem le_foldl_max_mem {l : List ℚ} {x : ℚ} (h : x ∈ l) (a : ℚ) :
    x ≤ l.foldl max a := by
  induction l generalizing a with
  | nil => simp at h
  | cons y rest ih =>
    rcases List.mem_cons.mp h with rfl | hx
    · exact le_trans (le_max_right a x) (le_foldl_max_init rest (max a x))
    · exact ih hx (max a y)

theorem min_max_normalize_bounds {values : List ℚ} :
    ∀ x ∈ min_max_normalize values, 0 ≤ x ∧ x ≤ 1 := by
  intro x hx
  match values, hx with
  | v :: vs, hx =>
    simp only [min_max_normalize] at hx
    split at hx
    · rcases List.mem_map.mp hx with ⟨_, _, rfl⟩
      norm_num
    · next hflat =>
      rcases List.mem_map.mp hx with ⟨y, hy, rfl⟩
      have hmn : vs.foldl min v ≤ y := by
        rcases List.mem_cons.mp hy with rfl | hy'
        · exact foldl_min_le_init vs y
        · exact foldl_min_le_mem hy' v
      have hmx : y ≤ vs.foldl max v := by
        rcases List.mem_cons.mp hy with rfl | hy'
        · exact le_foldl_max_init vs y
        · exact le_foldl_max_mem hy' v
      have hlt : vs.foldl min v < vs.foldl max v := by
        by_contra hle
        push_neg at hle
        have h0 : vs.foldl min v ≤ vs.foldl max v := le_trans hmn hmx
        have : |vs.foldl max v - vs.foldl min v| ≤ epsF64 := by
          rw [abs_of_nonneg (by linarith)]
          have : (0 : ℚ) < epsF64 := by norm_num [epsF64]
          linarith
        exact hflat this
      constructor
      · exact div_nonneg (by linarith) (by linarith)
      · rw [div_le_one (by linarith)]
        linarith

theorem length_min_max_normalize (values : List ℚ) :
    (min_max_normalize values).length = values.length := by
  match values with
  | [] => rfl
  | v :: vs =>
    simp only [min_max_normalize]
    split <;> simp

theorem mem_enumFrom {j : Nat} {q : ℚ} {l : List ℚ} :
    ∀ {i : Nat}, (j, q) ∈ enumFrom i l → i ≤ j ∧ l.get? (j - i) = some q := by
  induction l with
  | nil => intro i h; simp [enumFrom] at h
  | cons a rest ih =>
    intro i h
    rcases List.mem_cons.mp h with heq | hmem
    · obtain ⟨rfl, rfl⟩ := Prod.mk.inj heq
      simp
    · obtain ⟨h1, h2⟩ := ih hmem
      refine ⟨by omega, ?_⟩
      have : j - i = (j - (i + 1)) + 1 := by omega
      rw [this]
      simpa using h2

theorem get?_zipWith {f : ℚ → ℚ → ℚ} {l1 l2 : List ℚ} {i : Nat} {q : ℚ}
    (h : (List.zipWith f l1 l2).get? i = some q) :
    ∃ a b, l1.get? i = some a ∧ l2.get? i = some b ∧ q = f a b := by
  induction l1 generalizing l2 i with
  | nil => simp [List.zipWith] at h
  | cons x xs ih =>
    cases l2 with
    | nil => simp [List.zipWith] at h
    | cons y ys =>
      cases i with
      | zero =>
        simp only [List.zipWith, List.get?] at h
        exact ⟨x, y, rfl, rfl, (Option.some.inj h).symm⟩
      | succ n =>
        simp only [List.zipWith, List.get?] at h ⊢
        exact ih h

theorem mem_insertDesc {x a : Nat × ℚ} {l : List (Nat × ℚ)} :
    x ∈ insertDesc a l ↔ x = a ∨ x ∈ l := by
  induction l with
  | nil => simp [insertDesc]
  | cons b rest ih =>
    simp only [insertDesc]
    split
    · simp
    · simp only [List.mem_cons, ih]
      tauto

theorem pairwise_insertDesc {a : Nat × ℚ} {l : List (Nat × ℚ)}
    (h : List.Pairwise (fun x y => y.2 ≤ x.2) l) :
    List.Pairwise (fun x y => y.2 ≤ x.2) (insertDesc a l) := by
  induction l with
  | nil => simp [insertDesc]
  | cons b rest ih =>
    simp only [insertDesc]
    rcases List.pairwise_cons.mp h with ⟨hb, hrest⟩
    split
    · next hba =>
      refine List.pairwise_cons.mpr ⟨?_, h⟩
      intro y hy
      rcases List.mem_cons.mp hy with rfl | hy'
      · exact hba
      · exact le_trans (hb y hy') hba
    · next hba =>
      refine List.pairwise_cons.mpr ⟨?_, ih hrest⟩
      intro y hy
      rcases mem_insertDesc.mp hy with rfl | hy'
      · linarith [lt_of_not_le hba]
      · exact hb y hy'

theorem sortDesc_pairwise (l : List (Nat × ℚ)) :
    List.Pairwise (fun x y => y.2 ≤ x.2) (sortDesc l) := by
  induction l with
  | nil => simp [sortDesc]
  | cons a rest ih => exact pairwise_insertDesc ih

theorem mem_sortDesc {x : Nat × ℚ} {l : List (Nat × ℚ)} :
    x ∈ sortDesc l ↔ x ∈ l := by
  induction l with
  | nil => simp [sortDesc]
  | cons a rest ih =>
    simp only [sortDesc, mem_insertDesc, ih, List.mem_cons]

theorem filter_insertDesc (a : Nat × ℚ) (l : List (Nat × ℚ)) (s : ℚ) :
    (insertDesc a l).filter (fun p => p.2 = s) =
      (a :: l).filter (fun p => p.2 = s) := by
  induction l with
  | nil => rfl
  | cons b rest ih =>
    simp only [insertDesc]
    split
    · rfl
    · next hba =>
      have hlt : a.2 < b.2 := lt_of_not_le hba
      simp only [List.filter_cons, ih, decide_eq_true_eq]
      by_cases hbs : b.2 = s
      · have has : ¬ a.2 = s := by
          rintro rfl
          linarith
        simp [hbs, has]
      · by_cases has : a.2 = s <;> simp [hbs, has]

theorem filter_sortDesc (l : List (Nat × ℚ)) (s : ℚ) :
    (sortDesc l).filter (fun p => p.2 = s) = l.filter (fun p => p.2 = s) := by
  induction l with
  | nil => rfl
  | cons a rest ih =>
    simp only [sortDesc]
    rw [filter_insertDesc, List.filter_cons, List.filter_cons, ih]

/-- C4 (confirmed).  Every returned hit's score is
`0.35·lexical_norm + 0.65·semantic_norm` of its candidate, scores lie in
`[0,1]`, the returned list is non-increasing in score, and equal scores keep
the candidates' original relative order (the sorted list filtered to any
score value equals the pre-sort list filtered to it). -/
theorem C4_hybrid_fusion (bm25 : List ℚ) (semScores : Option (List ℚ)) :
    (∀ p ∈ ftsSearchHits bm25 semScores,
      ∃ l s, (min_max_normalize (bm25.map Neg.neg)).get? p.1 = some l ∧
        (semNormOf bm25 semScores).get? p.1 = some s ∧
        p.2 = l * HYBRID_LEXICAL_WEIGHT + s * HYBRID_SEMANTIC_WEIGHT) ∧
    (∀ p ∈ ftsSearchHits bm25 semScores, 0 ≤ p.2 ∧ p.2 ≤ 1) ∧
    List.Pairwise (fun x y => y.2 ≤ x.2) (ftsSearchHits bm25 semScores) ∧
    (∀ s : ℚ, (hybridRanked bm25 semScores).filter (fun p => p.2 = s) =
      (hybridPairs bm25 semScores).filter (fun p => p.2 = s)) := by
  have hformula : ∀ p ∈ ftsSearchHits bm25 semScores,
      ∃ l s, (min_max_normalize (bm25.map Neg.neg)).get? p.1 = some l ∧
        (semNormOf bm25 semScores).get? p.1 = some s ∧
        p.2 = l * HYBRID_LEXICAL_WEIGHT + s * HYBRID_SEMANTIC_WEIGHT := by
    intro p hp
    have hp1 : p ∈ hybridRanked bm25 semScores :=
      List.mem_of_mem_take hp
    have hp2 : p ∈ hybridPairs bm25 semScores := mem_sortDesc.mp hp1
    obtain ⟨x, q⟩ := p
    obtain ⟨-, hget⟩ := mem_enumFrom (i := 0) hp2
    simp only [Nat.sub_zero] at hget
    obtain ⟨l, s, hl, hs, rfl⟩ := get?_zipWith hget
    exact ⟨l, s, hl, hs, rfl⟩
  refine ⟨hformula, ?_, ?_, ?_⟩
  · intro p hp
    obtain ⟨l, s, hl, hs, hq⟩ := hformula p hp
    have hlmem : l ∈ min_max_normalize (bm25.map Neg.neg) :=
      List.get?_mem hl
    have hlb := min_max_normalize_bounds l hlmem
    have hsb : 0 ≤ s ∧ s ≤ 1 := by
      have hsmem : s ∈ semNormOf bm25 semScores := List.get?_mem hs
      unfold semNormOf at hsmem
      match semScores, hsmem with
      | some sc, hsmem => exact min_max_normalize_bounds s hsmem
      | none, hsmem =>
        have : s = 0 := List.eq_of_mem_replicate hsmem
        simp [this]
    rw [hq]
    unfold HYBRID_LEXICAL_WEIGHT HYBRID_SEMANTIC_WEIGHT
    constructor
    · have h1 : 0 ≤ l * (35 / 100 : ℚ) :=
        mul_nonneg hlb.1 (by norm_num)
      have h2 : 0 ≤ s * (65 / 100 : ℚ) :=
        mul_nonneg hsb.1 (by norm_num)
      linarith
    · have h1 : l * (35 / 100 : ℚ) ≤ 35 / 100 := by
        nlinarith [hlb.2]
      have h2 : s * (65 / 100 : ℚ) ≤ 65 / 100 := by
        nlinarith [hsb.2]
      linarith
  · exact List.Pairwise.sublist (List.take_sublist _ _)
      (sortDesc_pairwise (hybridPairs bm25 semScores))
  · intro s
    exact filter_sortDesc (hybridPairs bm25 semScores) s

/-- Closed instantiation of the formula part of `C4_hybrid_fusion` at the
top hit of a two-candidate search. -/
theorem C4_hybrid_fusion_witness :
    ∃ l s,
      (min_max_normalize (([-1, -2] : List ℚ).map Neg.neg)).get? 0 = some l ∧
      (semNormOf [-1, -2] (some [9 / 10, 1 / 10])).get? 0 = some s ∧
      (13 / 20 : ℚ) = l * HYBRID_LEXICAL_WEIGHT + s * HYBRID_SEMANTIC_WEIGHT :=
  (C4_hybrid_fusion [-1, -2] (some [9 / 10, 1 / 10])).1 (0, 13 / 20)
    (by decide)

/-! ### C5: semantic-edge cache invariants -/

theorem refreshRows_mem {links : List (String × String)}
    {keyOf : String → Option String} {source : String} :
    ∀ {rows : List (String × ℚ)} {added : Nat} {e : SemanticEdge},
      e ∈ refreshRows links keyOf source rows added →
      e.source_path = source ∧
      e.target_path ≠ source ∧
      (e.target_path, e.distance) ∈ rows ∧
      e.score = clamp01 (1 - e.distance * e.distance * (1 / 2)) ∧
      SEMANTIC_THRESHOLD ≤ e.score ∧
      (∃ k, keyOf e.target_path = some k ∧ (source, k) ∉ links) := by
  intro rows
  induction rows with
  | nil => intro added e he; simp [refreshRows] at he
  | cons row rest ih =>
    intro added e he
    obtain ⟨target, distance⟩ := row
    simp only [refreshRows] at he
    split at he
    · next hself =>
      obtain ⟨h1, h2, h3, h4, h5, h6⟩ := ih he
      exact ⟨h1, h2, by simp [h3], h4, h5, h6⟩
    · next hself =>
      split at he
      · next hthr =>
        obtain ⟨h1, h2, h3, h4, h5, h6⟩ := ih he
        exact ⟨h1, h2, by simp [h3], h4, h5, h6⟩
      · next hthr =>
        cases hkey : keyOf target with
        | none =>
          simp only [hkey] at he
          obtain ⟨h1, h2, h3, h4, h5, h6⟩ := ih he
          exact ⟨h1, h2, by simp [h3], h4, h5, h6⟩
        | some targetKey =>
          simp only [hkey] at he
          split at he
          · obtain ⟨h1, h2, h3, h4, h5, h6⟩ := ih he
            exact ⟨h1, h2, by simp [h3], h4, h5, h6⟩
          · next hlink =>
            split at he
            · rcases List.mem_singleton.mp he with rfl
              exact ⟨rfl, hself, by simp, rfl, le_of_not_lt hthr,
                ⟨targetKey, hkey, hlink⟩⟩
            · rcases List.mem_cons.mp he with rfl | he'
              · exact ⟨rfl, hself, by simp, rfl, le_of_not_lt hthr,
                  ⟨targetKey, hkey, hlink⟩⟩
              · obtain ⟨h1, h2, h3, h4, h5, h6⟩ := ih he'
                exact ⟨h1, h2, by simp [h3], h4, h5, h6⟩

theorem refreshRows_length {links : List (String × String)}
    {keyOf : String → Option String} {source : String} :
    ∀ (rows : List (String × ℚ)) (added : Nat), added ≤ 2 →
      (refreshRows links keyOf source rows added).length ≤ 3 - added := by
  intro rows
  induction rows with
  | nil => intro added h; simp [refreshRows]
  | cons row rest ih =>
    intro added h
    obtain ⟨target, distance⟩ := row
    simp only [refreshRows]
    split
    · exact ih added h
    · split
      · exact ih added h
      · cases hkey : keyOf target with
        | none => exact ih added h
        | some targetKey =>
          show (if (source, targetKey) ∈ links then
              refreshRows links keyOf source rest added
            else
              if SEMANTIC_TOP_K_PER_NOTE ≤ added + 1 then
                [{ source_path := source, target_path := target,
                   score := clamp01 (1 - distance * distance * (1 / 2)),
                   distance := distance }]
              else
                { source_path := source, target_path := target,
                  score := clamp01 (1 - distance * distance * (1 / 2)),
                  distance := distance } ::
                  refreshRows links keyOf source rest (added + 1)).length ≤
            3 - added
          split
          · exact ih added h
          · split
            · next hcap =>
              simp only [List.length_singleton]
              omega
            · next hcap =>
              simp only [SEMANTIC_TOP_K_PER_NOTE, not_le] at hcap
              have := ih (added + 1) (by omega)
              simp only [List.length_cons]
              omega

theorem mem_insertLower {x a : String} {l : List String} :
    x ∈ refresh_semantic_edges_cache.insertLower a l ↔ x = a ∨ x ∈ l := by
  induction l with
  | nil => simp [refresh_semantic_edges_cache.insertLower]
  | cons b rest ih =>
    simp only [refresh_semantic_edges_cache.insertLower]
    split
    · simp
    · simp only [List.mem_cons, ih]
      tauto

theorem nodup_insertLower {a : String} {l : List String} (ha : a ∉ l)
    (h : l.Nodup) : (refresh_semantic_edges_cache.insertLower a l).Nodup := by
  induction l with
  | nil => simp [refresh_semantic_edges_cache.insertLower]
  | cons b rest ih =>
    simp only [refresh_semantic_edges_cache.insertLower]
    rcases List.nodup_cons.mp h with ⟨hb, hrest⟩
    split
    · exact List.nodup_cons.mpr ⟨by simpa using ha, h⟩
    · refine List.nodup_cons.mpr ⟨?_, ih (fun hm => ha (by simp [hm])) hrest⟩
      intro hmem
      rcases mem_insertLower.mp hmem with rfl | hmem'
      · exact ha (by simp)
      · exact hb hmem'

theorem mem_sortByKeyLower {x : String} {l : List String} :
    x ∈ refresh_semantic_edges_cache.sortByKeyLower l ↔ x ∈ l := by
  induction l with
  | nil => simp [refresh_semantic_edges_cache.sortByKeyLower]
  | cons a rest ih =>
    simp only [refresh_semantic_edges_cache.sortByKeyLower, List.foldr_cons,
      List.mem_cons]
    rw [show List.foldr (fun a acc =>
        refresh_semantic_edges_cache.insertLower a acc) [] rest =
      refresh_semantic_edges_cache.sortByKeyLower rest from rfl] at *
    rw [mem_insertLower, ih]

theorem nodup_sortByKeyLower {l : List String} (h : l.Nodup) :
    (refresh_semantic_edges_cache.sortByKeyLower l).Nodup := by
  induction l with
  | nil => simp [refresh_semantic_edges_cache.sortByKeyLower]
  | cons a rest ih =>
    rcases List.nodup_cons.mp h with ⟨ha, hrest⟩
    show (refresh_semantic_edges_cache.insertLower a
      (refresh_semantic_edges_cache.sortByKeyLower rest)).Nodup
    exact nodup_insertLower (fun hm => ha (mem_sortByKeyLower.mp hm))
      (ih hrest)

theorem countP_flatMap_zero {f : String → List SemanticEdge} {s₀ : String}
    {L : List String}
    (hsrc : ∀ s, ∀ e ∈ f s, e.source_path = s) (hno : s₀ ∉ L) :
    ((L.flatMap f).countP (fun e => e.source_path = s₀)) = 0 := by
  induction L with
  | nil => simp
  | cons s L' ih =>
    have hs : s ≠ s₀ := fun h => hno (by simp [h])
    simp only [List.flatMap_cons, List.countP_append]
    rw [ih (fun hm => hno (by simp [hm]))]
    rw [List.countP_eq_zero.mpr]
    intro e he
    simp only [decide_eq_true_eq]
    rw [hsrc s e he]
    exact hs

theorem countP_flatMap_le {f : String → List SemanticEdge} {s₀ : String}
    {L : List String}
    (hsrc : ∀ s, ∀ e ∈ f s, e.source_path = s)
    (hlen : ∀ s, (f s).length ≤ 3) (hnd : L.Nodup) :
    ((L.flatMap f).countP (fun e => e.source_path = s₀)) ≤ 3 := by
  induction L with
  | nil => simp
  | cons s L' ih =>
    rcases List.nodup_cons.mp hnd with ⟨hs, hnd'⟩
    simp only [List.flatMap_cons, List.countP_append]
    by_cases hss : s = s₀
    · subst hss
      rw [countP_flatMap_zero hsrc hs]
      calc (f s).countP (fun e => e.source_path = s) + 0
          ≤ (f s).length + 0 := by
            exact Nat.add_le_add_right (List.countP_le_length _) 0
        _ ≤ 3 := by simpa using hlen s
    · rw [List.countP_eq_zero.mpr (fun e he => by
        simp only [decide_eq_true_eq]
        rw [hsrc s e he]
        exact hss)]
      simpa using ih hnd'

/-- C5 (confirmed).  After a refresh run, every cached semantic edge has
`source ≠ target`, score `clamp(1 − d²/2, 0, 1)` for its reported k-NN
distance `d` with `0.62 ≤ score ≤ 1`, no explicit `note_links` row
`(source, key(target))`, and at most 3 edges share its source (the source
paths are distinct because `note_embeddings.path` is a primary key). -/
theorem C5_semantic_edges_invariant :
    ∀ (links : List (String × String)) (keyOf : String → Option String)
      (knn : String → List (String × ℚ)) (sources : List String),
      sources.Nodup →
      ∀ e ∈ refresh_semantic_edges_cache links keyOf knn sources,
        e.source_path ≠ e.target_path ∧
        e.score = clamp01 (1 - e.distance * e.distance * (1 / 2)) ∧
        (e.target_path, e.distance) ∈ knn e.source_path ∧
        SEMANTIC_THRESHOLD ≤ e.score ∧ e.score ≤ 1 ∧
        (∃ k, keyOf e.target_path = some k ∧ (e.source_path, k) ∉ links) ∧
        ((refresh_semantic_edges_cache links keyOf knn sources).countP
          (fun e' => e'.source_path = e.source_path)) ≤ 3 := by
  intro links keyOf knn sources hnd e he
  have hsrc : ∀ s, ∀ e' ∈ refreshRows links keyOf s
      ((knn s).take (SEMANTIC_TOP_K_PER_NOTE + 1)) 0, e'.source_path = s :=
    fun s e' he' => (refreshRows_mem he').1
  obtain ⟨s, hsmem, hes⟩ := List.mem_flatMap.mp he
  obtain ⟨h1, h2, h3, h4, h5, h6⟩ := refreshRows_mem hes
  subst h1
  refine ⟨fun hh => h2 hh.symm, h4, ?_, h5, ?_, h6, ?_⟩
  · exact List.mem_of_mem_take h3
  · rw [h4]
    unfold clamp01
    split_ifs <;> linarith
  · exact countP_flatMap_le hsrc
      (fun s' => by
        simpa using @refreshRows_length links keyOf s'
          ((knn s').take (SEMANTIC_TOP_K_PER_NOTE + 1)) 0 (by norm_num))
      (nodup_sortByKeyLower hnd)

/-- Closed instantiation of `C5_semantic_edges_invariant` on a one-source
store. -/
theorem C5_semantic_edges_invariant_witness :
    (SemanticEdge.mk "a.md" "b.md" (7 / 8) (1 / 2)).source_path ≠
      (SemanticEdge.mk "a.md" "b.md" (7 / 8) (1 / 2)).target_path ∧
    (SemanticEdge.mk "a.md" "b.md" (7 / 8) (1 / 2)).score =
      clamp01 (1 - (SemanticEdge.mk "a.md" "b.md" (7 / 8) (1 / 2)).distance *
        (SemanticEdge.mk "a.md" "b.md" (7 / 8) (1 / 2)).distance * (1 / 2)) ∧
    ((SemanticEdge.mk "a.md" "b.md" (7 / 8) (1 / 2)).target_path,
      (SemanticEdge.mk "a.md" "b.md" (7 / 8) (1 / 2)).distance) ∈
      (fun (_ : String) => [("b.md", (1 : ℚ) / 2), ("a.md", 0), ("c.md", 2)])
        (SemanticEdge.mk "a.md" "b.md" (7 / 8) (1 / 2)).source_path ∧
    SEMANTIC_THRESHOLD ≤ (SemanticEdge.mk "a.md" "b.md" (7 / 8) (1 / 2)).score ∧
    (SemanticEdge.mk "a.md" "b.md" (7 / 8) (1 / 2)).score ≤ 1 ∧
    (∃ k, (fun (t : String) => some t)
        (SemanticEdge.mk "a.md" "b.md" (7 / 8) (1 / 2)).target_path = some k ∧
      ((SemanticEdge.mk "a.md" "b.md" (7 / 8) (1 / 2)).source_path, k) ∉
        ([] : List (String × String))) ∧
    ((refresh_semantic_edges_cache [] (fun t => some t)
        (fun _ => [("b.md", 1 / 2), ("a.md", 0), ("c.md", 2)])
        ["a.md"]).countP
      (fun e' => e'.source_path =
        (SemanticEdge.mk "a.md" "b.md" (7 / 8) (1 / 2)).source_path)) ≤ 3 :=
  C5_semantic_edges_invariant [] (fun t => some t)
    (fun _ => [("b.md", 1 / 2), ("a.md", 0), ("c.md", 2)]) ["a.md"]
    (by decide) (SemanticEdge.mk "a.md" "b.md" (7 / 8) (1 / 2)) (by decide)

/-! ### C6: frontmatter isolation -/

/-- C6 (confirmed).  Link-target extraction operates on the body only: when
the closing `"\n---\n"` marker is located right after the frontmatter block,
the extracted targets are exactly the body's targets; the example file yields
targets `{"bodynote"}` while its frontmatter still yields the text property
`assignee = "[[alice]]"`. -/
theorem C6_frontmatter_isolation :
    (∀ fm body : String,
      splitFrontmatterEnd
          (fm.data ++ '\n' :: '-' :: '-' :: '-' :: '\n' :: body.data) =
        some (fm.data, body.data) →
      parse_note_targets ("---\n" ++ fm ++ "\n---\n" ++ body) =
        noteTargetsOfBody body.data) ∧
    parse_note_targets "---\nassignee: \"[[Alice]]\"\n---\n[[BodyNote]]" =
      {"bodynote"} ∧
    parse_yaml_frontmatter_properties
        "---\nassignee: \"[[Alice]]\"\n---\n[[BodyNote]]" =
      [{ key := "assignee", kind := "text", value_text := some "[[alice]]",
         value_num := none, value_bool := none, value_date := none }] := by
  refine ⟨?_, by decide, by decide⟩
  intro fm body hsplit
  unfold parse_note_targets
  congr 1
  have happ : ∀ a b : String, (a ++ b).data = a.data ++ b.data := by
    intro a b
    cases a
    cases b
    rfl
  have hdata : ("---\n" ++ fm ++ "\n---\n" ++ body).data =
      '-' :: '-' :: '-' :: '\n' ::
        (fm.data ++ '\n' :: '-' :: '-' :: '-' :: '\n' :: body.data) := by
    rw [happ, happ, happ]
    have h1 : ("---\n" : String).data = ['-', '-', '-', '\n'] := by decide
    have h2 : ("\n---\n" : String).data = ['\n', '-', '-', '-', '\n'] := by
      decide
    rw [h1, h2]
    simp [List.append_assoc]
  rw [hdata]
  show (match splitFrontmatterEnd
      (fm.data ++ '\n' :: '-' :: '-' :: '-' :: '\n' :: body.data) with
    | some p => p.2
    | none => '-' :: '-' :: '-' :: '\n' ::
        (fm.data ++ '\n' :: '-' :: '-' :: '-' :: '\n' :: body.data)) =
    body.data
  rw [hsplit]

/-- Closed instantiation of the quantified part of
`C6_frontmatter_isolation`. -/
theorem C6_frontmatter_isolation_witness :
    parse_note_targets ("---\n" ++ "assignee: \"[[Alice]]\"" ++ "\n---\n" ++
        "[[BodyNote]]") =
      noteTargetsOfBody "[[BodyNote]]".data :=
  C6_frontmatter_isolation.1 "assignee: \"[[Alice]]\"" "[[BodyNote]]"
    (by decide)

/-! ### C7: cooperative cancellation of the full rebuild -/

theorem rebuildLoop_cancel (flag : Nat → Bool) :
    ∀ (files : List String) (start i : Nat), i < files.length →
      flag (start + i) = true → (∀ j < i, flag (start + j) = false) →
      rebuildLoop flag start files = (i, true) := by
  intro files
  induction files with
  | nil => intro start i h; simp at h
  | cons f rest ih =>
    intro start i hi hflag hbefore
    cases i with
    | zero =>
      simp only [Nat.add_zero] at hflag
      simp [rebuildLoop, hflag]
    | succ k =>
      have h0 : flag start = false := by
        have := hbefore 0 (Nat.succ_pos k)
        simpa using this
      simp only [rebuildLoop, h0, Bool.false_eq_true, if_false]
      have := ih (start + 1) k (by simpa using Nat.lt_of_succ_lt_succ hi)
        (by rw [show start + 1 + k = start + (k + 1) by omega]; exact hflag)
        (fun j hj => by
          rw [show start + 1 + j = start + (j + 1) by omega]
          exact hbefore (j + 1) (by omega))
      rw [this]

/-- C7 (confirmed).  If the cancellation flag is observed set at the poll
before the `i`-th file (and was clear at the earlier polls), the rebuild loop
exits before processing that file: exactly `i` files were indexed, the result
reports `canceled = true`, and the semantic-edge refresh does not run. -/
theorem C7_rebuild_cancellation :
    ∀ (flag : Nat → Bool) (files : List String) (i : Nat),
      i < files.length → flag i = true → (∀ j < i, flag j = false) →
      (rebuild_workspace_index flag files).canceled = true ∧
      (rebuild_workspace_index flag files).refreshed = false ∧
      (rebuild_workspace_index flag files).indexed_files = i := by
  intro flag files i hi hflag hbefore
  have hloop : rebuildLoop flag 0 files = (i, true) :=
    rebuildLoop_cancel flag files 0 i hi (by simpa using hflag)
      (fun j hj => by simpa using hbefore j hj)
  unfold rebuild_workspace_index
  rw [hloop]
  exact ⟨rfl, rfl, rfl⟩

/-- Closed instantiation of `C7_rebuild_cancellation`: cancel observed before
the third of four files. -/
theorem C7_rebuild_cancellation_witness :
    (rebuild_workspace_index (fun i => decide (i = 2))
        ["a.md", "b.md", "c.md", "d.md"]).canceled = true ∧
    (rebuild_workspace_index (fun i => decide (i = 2))
        ["a.md", "b.md", "c.md", "d.md"]).refreshed = false ∧
    (rebuild_workspace_index (fun i => decide (i = 2))
        ["a.md", "b.md", "c.md", "d.md"]).indexed_files = 2 :=
  C7_rebuild_cancellation (fun i => decide (i = 2))
    ["a.md", "b.md", "c.md", "d.md"] 2 (by decide) (by decide) (by decide)

/-! ### C8: centroid error conditions and value -/

/-- C8 (corrected).  `centroid` returns `none` exactly when the input is
empty, the vectors are zero-dimensional (`first = []`), or some vector's
dimension differs from the first's; otherwise it returns the element-wise
mean, L2-normalized (left unscaled when the squared norm is at most
`f32::EPSILON`).  The zero-dimension case is absent from the claim. -/
theorem C8_centroid :
    (∀ (sqrt : ℚ → ℚ) (vectors : List (List ℚ)),
      (centroid sqrt vectors = none ↔
        vectors = [] ∨ vectors.head? = some [] ∨
          ∃ v ∈ vectors, v.length ≠ (vectors.headD []).length)) ∧
    (∀ (sqrt : ℚ → ℚ) (first : List ℚ) (rest : List (List ℚ)),
      first ≠ [] → (∀ v ∈ first :: rest, v.length = first.length) →
      centroid sqrt (first :: rest) =
        some (normalize_in_place sqrt
          ((sumVectors first.length (first :: rest)).map
            (fun v => v / (((first :: rest).length : Nat) : ℚ))))) := by
  constructor
  · intro sqrt vectors
    cases vectors with
    | nil => simp [centroid]
    | cons first rest =>
      simp only [centroid, List.head?_cons, List.headD_cons]
      by_cases hfirst : first = []
      · simp [hfirst]
      · simp only [if_neg hfirst]
        by_cases hmis : (first :: rest).any
            (fun item => item.length ≠ first.length)
        · rw [if_pos hmis]
          simp only [List.any_eq_true, decide_eq_true_eq] at hmis
          obtain ⟨x, hx, hxne⟩ := hmis
          exact iff_of_true rfl (Or.inr (Or.inr ⟨x, hx, hxne⟩))
        · rw [if_neg hmis]
          simp only [List.any_eq_true, decide_eq_true_eq] at hmis
          push_neg at hmis
          refine iff_of_false (by simp) ?_
          push_neg
          refine ⟨by simp, by simpa using hfirst, ?_⟩
          exact hmis
  · intro sqrt first rest hfirst hdims
    have hcond : ¬ ((first :: rest).any
        (fun item => item.length ≠ first.length)) = true := by
      simp only [List.any_eq_true, decide_eq_true_eq]
      push_neg
      exact hdims
    simp only [centroid, if_neg hfirst, if_neg hcond]

/-- Closed instantiation of the value part of `C8_centroid`. -/
theorem C8_centroid_witness :
    centroid (fun q => q) [[1, 2], [3, 4]] =
      some (normalize_in_place (fun q => q)
        ((sumVectors ([1, 2] : List ℚ).length [[1, 2], [3, 4]]).map
          (fun v => v / ((([[1, 2], [3, 4]] : List (List ℚ)).length : Nat) :
            ℚ)))) :=
  C8_centroid.2 (fun q => q) [1, 2] [[3, 4]] (by decide) (by decide)

/-- C8 as stated is false: the singleton input holding one zero-dimensional
vector is non-empty and has no two vectors of different dimensions, yet
`centroid` returns `none`. -/
theorem C8_counterexample :
    centroid (fun q => q) [[]] = none ∧
    ([[]] : List (List ℚ)) ≠ [] ∧
    (([[]] : List (List ℚ)).any
      (fun v => v.length ≠ (([[]] : List (List ℚ)).headD []).length)) =
      false := by
  refine ⟨rfl, by simp, by decide⟩

/-! ### C9: vector blob round trip -/

theorem leBytes_decode {w : Nat} (h : w < 2 ^ 32) :
    w % 256 + 256 * (w / 256 % 256 + 256 * (w / 256 ^ 2 % 256 +
      256 * (w / 256 ^ 3 % 256))) = w := by
  have h3 : w / 256 ^ 3 % 256 = w / 256 ^ 3 := by
    apply Nat.mod_eq_of_lt
    omega
  rw [h3]
  have e1 : w / 256 ^ 3 = w / 256 / 256 / 256 := by
    simp [Nat.div_div_eq_div_mul]
  have e2 : w / 256 ^ 2 = w / 256 / 256 := by
    simp [Nat.div_div_eq_div_mul]
  rw [e1, e2]
  omega

theorem wordsOfBytes_leBytes {w : Nat} (h : w < 2 ^ 32) (rest : List Nat) :
    wordsOfBytes (leBytes w ++ rest) = w :: wordsOfBytes rest := by
  simp only [leBytes, List.cons_append, List.nil_append, wordsOfBytes]
  congr 1
  have := leBytes_decode h
  ring_nf
  ring_nf at this
  omega

theorem vector_to_blob_length (v : List Nat) :
    (vector_to_blob v).length = v.length * 4 := by
  induction v with
  | nil => rfl
  | cons w rest ih =>
    show (leBytes (w % 2 ^ 32) ++ vector_to_blob rest).length =
      (rest.length + 1) * 4
    rw [List.length_append, ih]
    simp only [leBytes, List.length_cons, List.length_nil]
    omega

theorem wordsOfBytes_vector_to_blob {v : List Nat}
    (hbound : ∀ w ∈ v, w < 2 ^ 32) :
    wordsOfBytes (vector_to_blob v) = v := by
  induction v with
  | nil => rfl
  | cons w rest ih =>
    have hw : w % 2 ^ 32 = w := Nat.mod_eq_of_lt (hbound w (by simp))
    show wordsOfBytes (leBytes (w % 2 ^ 32) ++ vector_to_blob rest) = w :: rest
    rw [hw, wordsOfBytes_leBytes (hbound w (by simp)),
      ih (fun x hx => hbound x (by simp [hx]))]

/-- C9 (confirmed).  Deserializing a serialized non-empty vector with
`dim = len(v)` returns exactly `v` (f32 payloads are modelled by their 32-bit
bit patterns), and deserialization returns `none` whenever the blob length
differs from `dim * 4`. -/
theorem C9_blob_roundtrip :
    (∀ v : List Nat, v ≠ [] → (∀ w ∈ v, w < 2 ^ 32) →
      blob_to_vector (vector_to_blob v) v.length = some v) ∧
    (∀ (blob : List Nat) (dim : Nat), blob.length ≠ dim * 4 →
      blob_to_vector blob dim = none) := by
  constructor
  · intro v hne hbound
    have hcond : ¬ (v.length = 0 ∨
        (vector_to_blob v).length ≠ v.length * 4) := by
      push_neg
      exact ⟨by simpa [List.length_eq_zero] using hne,
        vector_to_blob_length v⟩
    unfold blob_to_vector
    rw [if_neg hcond, wordsOfBytes_vector_to_blob hbound]
  · intro blob dim h
    unfold blob_to_vector
    rw [if_pos (Or.inr h)]

/-- Closed instantiation of `C9_blob_roundtrip`. -/
theorem C9_blob_roundtrip_witness :
    blob_to_vector (vector_to_blob [5, 4294967295, 70000])
      ([5, 4294967295, 70000] : List Nat).length =
      some [5, 4294967295, 70000] ∧
    blob_to_vector [1, 2, 3] 1 = none :=
  ⟨C9_blob_roundtrip.1 [5, 4294967295, 70000] (by decide) (by decide),
    C9_blob_roundtrip.2 [1, 2, 3] 1 (by decide)⟩

/-! ### C10: removal deletes incoming links by note key -/

/-- C10 (confirmed).  Removing a note with workspace-relative path `p` keeps
exactly: the chunks, properties, embeddings and vector rows whose path differs
from `p`; the link rows that neither originate at `p` nor target `p`'s
normalized note key (so incoming links from other notes are deleted too); and
the semantic edges touching `p` at neither endpoint. -/
theorem C10_remove_deletes_incoming_links :
    ∀ (db : IndexDb) (p : String),
      (∀ c, c ∈ (remove_markdown_file_from_index db p).chunks ↔
        c ∈ db.chunks ∧ c.1 ≠ p) ∧
      (∀ l, l ∈ (remove_markdown_file_from_index db p).note_links ↔
        l ∈ db.note_links ∧ l.source_path ≠ p ∧
          l.target_key ≠ String.mk (noteKeyOfRelPath p.data)) ∧
      (∀ r, r ∈ (remove_markdown_file_from_index db p).note_properties ↔
        r ∈ db.note_properties ∧ r.1 ≠ p) ∧
      (∀ r, r ∈ (remove_markdown_file_from_index db p).note_embeddings ↔
        r ∈ db.note_embeddings ∧ r.1 ≠ p) ∧
      (∀ r, r ∈ (remove_markdown_file_from_index db p).vec_rows ↔
        r ∈ db.vec_rows ∧ r ≠ p) ∧
      (∀ e, e ∈ (remove_markdown_file_from_index db p).semantic_edges ↔
        e ∈ db.semantic_edges ∧ e.source_path ≠ p ∧ e.target_path ≠ p) := by
  intro db p
  unfold remove_markdown_file_from_index
  refine ⟨?_, ?_, ?_, ?_, ?_, ?_⟩ <;> intro x <;>
    simp [List.mem_filter, not_or, and_assoc]

end Meditor
